import Mathlib

set_option autoImplicit false

/-! RX front-end core 3000: register-level model

Shallow embedding of `host/lib/usrp/cores/rx_frontend_core_3000.cpp`.

Conventions of the embedding:

* a C++ `double` is a rational number; every arithmetic step of the source except
  the final quotient `_adc_rate / cordic_freq` is exact on doubles (scaling by a
  power of two, `fmod`, the folding subtraction, rounding to an integer), so the
  rational model computes the very same values, underflow of `_adc_rate / 2.0` at
  subnormal rates apart; a product that overflows the double range is modelled where
  the source converts it (`fs_to_bits`, `iround`);
* the quotient `_adc_rate / cordic_freq` is compared with 4 by a tolerance
  comparison whose header is not among the sources; its tolerance `epsilon` is a
  parameter of the model, and the comparison is applied to the exact quotient;
* `int32_t` values are integers, `uint32_t` / `size_t` / `unsigned long` values are
  naturals reduced modulo `2 ^ 32` / `2 ^ 64` where the source truncates;
* the register bus `_iface` is the list of the `poke32` transactions issued so far,
  oldest first; the content of a register is the data of the last transaction that
  addressed it;
* a member function returns an `Outcome`: the object after the call together with
  the returned value, or the object at the point where an exception left the call.
-/

namespace uhd

/-! ## Register map and flag constants (lines 20-42 of the source) -/

/-- Values of `size_t` wrap modulo `2 ^ 64`. -/
def SIZE_MOD : ℕ := 2 ^ 64

/-- Values of `uint32_t` wrap modulo `2 ^ 32`. -/
def UINT32_MOD : ℕ := 2 ^ 32

def REG_RX_FE_MAG_CORRECTION (base reg_offset : ℕ) : ℕ := (base + reg_offset * 0) % SIZE_MOD
def REG_RX_FE_PHASE_CORRECTION (base reg_offset : ℕ) : ℕ := (base + reg_offset * 1) % SIZE_MOD
def REG_RX_FE_OFFSET_I (base reg_offset : ℕ) : ℕ := (base + reg_offset * 2) % SIZE_MOD
def REG_RX_FE_OFFSET_Q (base reg_offset : ℕ) : ℕ := (base + reg_offset * 3) % SIZE_MOD
def REG_RX_FE_MAPPING (base reg_offset : ℕ) : ℕ := (base + reg_offset * 4) % SIZE_MOD
def REG_RX_FE_HET_CORDIC_PHASE (base reg_offset : ℕ) : ℕ := (base + reg_offset * 5) % SIZE_MOD

def FLAG_DSP_RX_MAPPING_SWAP_IQ : ℕ := 1 <<< 0
def FLAG_DSP_RX_MAPPING_REAL_MODE : ℕ := 1 <<< 1
def FLAG_DSP_RX_MAPPING_INVERT_Q : ℕ := 1 <<< 2
def FLAG_DSP_RX_MAPPING_INVERT_I : ℕ := 1 <<< 3
def FLAG_DSP_RX_MAPPING_DOWNCONVERT : ℕ := 1 <<< 4
def FLAG_DSP_RX_MAPPING_BYPASS_ALL : ℕ := 1 <<< 7

def OFFSET_FIXED : ℕ := 1 <<< 31
def OFFSET_SET : ℕ := 1 <<< 30
def FLAG_MASK : ℕ := OFFSET_FIXED ||| OFFSET_SET

def DC_OFFSET_MIN : ℚ := -1
def DC_OFFSET_MAX : ℚ := 1

/-- Largest `unsigned long`, the type of `FLAG_MASK` (from `1ul`). -/
def ULONG_MAX : ℕ := 2 ^ 64 - 1

/-- The operand `~FLAG_MASK`: bitwise complement in `unsigned long`. -/
def NOT_FLAG_MASK : ℕ := ULONG_MAX ^^^ FLAG_MASK

/-- Conversion of an `int32_t` to `unsigned long` (sign extension), as the usual
arithmetic conversions do to `_i_dc_off` in `_i_dc_off & ~FLAG_MASK`. -/
def to_ulong (n : ℤ) : ℕ := (n % 2 ^ 64).toNat

/-! ## Library functions the source calls -/

/-- Nearest integer, halfway cases away from zero: `boost::math::round`. -/
def round (v : ℚ) : ℤ := if v < 0 then ⌈v - 1 / 2⌉ else ⌊v + 1 / 2⌋

/-- Rounding to `int` with `boost::math::iround`: the nearest integer, halfway
cases away from zero; `none` stands for the `rounding_error` exception raised when
the rounded value is not representable in an `int` (32 bits). -/
def iround (v : ℚ) : Option ℤ :=
  if -(2 ^ 31) ≤ round v ∧ round v ≤ 2 ^ 31 - 1 then some (round v) else none

/-- Sign as `boost::math::sign` returns it: `1`, `0` or `-1`. -/
def sign (z : ℚ) : ℤ := if z = 0 then 0 else if z < 0 then -1 else 1

/-- Quotient with its fractional part discarded (rounding toward zero). -/
def trunc (q : ℚ) : ℤ := if 0 ≤ q then ⌊q⌋ else ⌈q⌉

/-- Floating-point remainder `std::fmod x y = x - n * y`, with `n` the quotient
`x / y` truncated toward zero; the result carries the sign of `x`. -/
def fmod (x y : ℚ) : ℚ := x - (trunc (x / y) : ℚ) * y

/-- Modelled from the spec: the comparison `fp_compare_epsilon<double>(a) == b` of
`uhd/utils/math.hpp`, a header that is not among the sources at hand. The spec words
it as equality within floating-point tolerance, an epsilon-based check: the two values
compare equal when their distance is at most the tolerance `epsilon` relative to
either of them. The tolerance is a constant of the absent header and is a parameter
here. -/
def fp_compare_epsilon_eq (epsilon a b : ℚ) : Bool :=
  decide (|a - b| ≤ epsilon * |a| ∨ |a - b| ≤ epsilon * |b|)

/-- Largest finite `double`, `(2 - 2^-52) * 2^1023`. -/
def DBL_MAX : ℚ := (2 ^ 53 - 1) * 2 ^ 971

/-! ## The connection descriptor -/

/-- Modelled from the spec: the sampling modes of `fe_connection_t`, whose
declaration is not among the sources at hand: `REAL`, `HETERODYNE`, and direct
complex sampling (`QUADRATURE`). -/
inductive sampling_t where
  | QUADRATURE
  | HETERODYNE
  | REAL
deriving DecidableEq, Repr

/-- Modelled from the spec: the front-end connection descriptor `fe_connection_t`,
whose declaration is not among the sources at hand: a sampling mode, the swap-IQ,
invert-I and invert-Q flags and an intermediate frequency in Hz. The fields carry
the names of the accessors the source calls. -/
structure fe_connection_t where
  get_sampling_mode : sampling_t
  is_iq_swapped : Bool
  is_i_inverted : Bool
  is_q_inverted : Bool
  get_if_freq : ℚ
deriving DecidableEq, Repr

/-- A `std::complex<double>` value. -/
structure complex_double where
  real : ℚ
  imag : ℚ
deriving DecidableEq, Repr

/-! ## The core object -/

/-- Data members of `rx_frontend_core_3000_impl` (lines 193-203); `_iface` is the
bus, recorded as the list of `(address, data)` pairs poked so far, oldest first. -/
structure rx_frontend_core_3000_impl where
  _i_dc_off : ℤ
  _q_dc_off : ℤ
  _adc_rate : ℚ
  _fe_conn : fe_connection_t
  _iface : List (ℕ × ℕ)
  _rx_fe_mag_corr_reg : ℕ
  _rx_fe_phase_corr_reg : ℕ
  _rx_fe_offset_i_reg : ℕ
  _rx_fe_offset_q_reg : ℕ
  _rx_fe_mapping_reg : ℕ
  _rx_fe_het_cordic_phase_reg : ℕ
deriving DecidableEq, Repr

/-- Result of a member function: it returned `value` leaving the object `self`,
it left by an exception with the object as `self`, or it ran into a conversion
the language leaves undefined. -/
inductive Outcome (α : Type) where
  | returned (self : rx_frontend_core_3000_impl) (value : α)
  | thrown (self : rx_frontend_core_3000_impl)
  | undefined
deriving DecidableEq, Repr

/-- Content of the register at `addr` after the transactions of `log`: the data of
the last poke to that address, `none` when it was never written. -/
def reg_value (log : List (ℕ × ℕ)) (addr : ℕ) : Option ℕ :=
  log.foldl (fun cur p => if p.1 = addr then some p.2 else cur) none

namespace rx_frontend_core_3000_impl

/-- The bus write `_iface->poke32(addr, data)`; the spec gives both the address and
the data of a write the type `uint32`. -/
def poke32 (self : rx_frontend_core_3000_impl) (addr data : ℕ) :
    rx_frontend_core_3000_impl :=
  { self with _iface := self._iface ++ [(addr % UINT32_MOD, data % UINT32_MOD)] }

/-- The constructor (lines 66-81). The initial descriptor `fe_connection_t("IQ")` is
built by code that is not among the sources at hand and is taken as the argument
`fe_conn_IQ`; the bus starts with the transactions `iface` already on it. -/
def make (iface : List (ℕ × ℕ)) (fe_conn_IQ : fe_connection_t) (base reg_offset : ℕ) :
    rx_frontend_core_3000_impl :=
  { _i_dc_off := 0
    _q_dc_off := 0
    _adc_rate := 0
    _fe_conn := fe_conn_IQ
    _iface := iface
    _rx_fe_mag_corr_reg := REG_RX_FE_MAG_CORRECTION base reg_offset
    _rx_fe_phase_corr_reg := REG_RX_FE_PHASE_CORRECTION base reg_offset
    _rx_fe_offset_i_reg := REG_RX_FE_OFFSET_I base reg_offset
    _rx_fe_offset_q_reg := REG_RX_FE_OFFSET_Q base reg_offset
    _rx_fe_mapping_reg := REG_RX_FE_MAPPING base reg_offset
    _rx_fe_het_cordic_phase_reg := REG_RX_FE_HET_CORDIC_PHASE base reg_offset }

/-- The member `set_adc_rate` (lines 83-86). -/
def set_adc_rate (self : rx_frontend_core_3000_impl) (rate : ℚ) : Outcome Unit :=
  .returned { self with _adc_rate := rate } ()

/-- The value `mapping_reg_val` computed by lines 99-118 of `set_fe_connection`. -/
def mapping_reg_val (fe_conn : fe_connection_t) : ℕ :=
  let v0 : ℕ :=
    match fe_conn.get_sampling_mode with
    | .REAL => FLAG_DSP_RX_MAPPING_REAL_MODE
    | .HETERODYNE => FLAG_DSP_RX_MAPPING_REAL_MODE ||| FLAG_DSP_RX_MAPPING_DOWNCONVERT
    | _ => 0
  let v1 := if fe_conn.is_iq_swapped then v0 ||| FLAG_DSP_RX_MAPPING_SWAP_IQ else v0
  let v2 := if fe_conn.is_i_inverted then v1 ||| FLAG_DSP_RX_MAPPING_INVERT_I else v1
  let v3 := if fe_conn.is_q_inverted then v2 ||| FLAG_DSP_RX_MAPPING_INVERT_Q else v2
  v3

/-- The aliased frequency `if_freq` after steps 2 and 3 (lines 128-133). -/
def aliased_freq (if_freq_in adc_rate : ℚ) : ℚ :=
  let if_freq := |fmod if_freq_in adc_rate|
  if if_freq > adc_rate / 2 then if_freq - adc_rate else if_freq

/-- The value `cordic_freq` computed by steps 1-4 (lines 126-136). -/
def cordic_freq (if_freq_in adc_rate : ℚ) : ℚ :=
  let if_freq_sign := sign if_freq_in
  aliased_freq if_freq_in adc_rate * ((-if_freq_sign : ℤ) : ℚ)

/-- The condition asserted at lines 137-138,
`fp_compare_epsilon<double>(4.0) == std::abs(_adc_rate / cordic_freq)`, reached with a
non-zero `_adc_rate`. On doubles a zero `cordic_freq` makes the quotient infinite, and
an infinity is within no tolerance of 4; on rationals the quotient by zero is 0, so
that case is decided apart. -/
def quarter_rate_check (epsilon adc_rate cordic_freq : ℚ) : Bool :=
  if cordic_freq = 0 then false
  else fp_compare_epsilon_eq epsilon 4 |adc_rate / cordic_freq|

/-- The member `set_fe_connection` (lines 97-145); `epsilon` is the tolerance of the
comparison in the assertion of lines 137-138. -/
def set_fe_connection (self : rx_frontend_core_3000_impl) (epsilon : ℚ)
    (fe_conn : fe_connection_t) : Outcome Unit :=
  let s1 := self.poke32 self._rx_fe_mapping_reg (mapping_reg_val fe_conn)
  if s1._adc_rate = 0 then .thrown s1 else
  if fe_conn.get_sampling_mode = sampling_t.HETERODYNE then
    let c := cordic_freq fe_conn.get_if_freq s1._adc_rate
    if quarter_rate_check epsilon s1._adc_rate c then
      let s2 := s1.poke32 s1._rx_fe_het_cordic_phase_reg (if c > 0 then 0 else 1)
      .returned { s2 with _fe_conn := fe_conn } ()
    else .thrown s1
  else .returned { s1 with _fe_conn := fe_conn } ()

/-- The member `bypass_all` (lines 88-95). -/
def bypass_all (self : rx_frontend_core_3000_impl) (epsilon : ℚ) (bypass_en : Bool) :
    Outcome Unit :=
  if bypass_en then
    .returned (self.poke32 self._rx_fe_mapping_reg FLAG_DSP_RX_MAPPING_BYPASS_ALL) ()
  else
    self.set_fe_connection epsilon self._fe_conn

/-- The data operand `flags | (off & ~FLAG_MASK)` of the pokes in `_set_dc_offset`,
evaluated in `unsigned long`. -/
def dc_offset_word (flags : ℕ) (off : ℤ) : ℕ := flags ||| (to_ulong off &&& NOT_FLAG_MASK)

/-- The member `_set_dc_offset` (lines 163-167). -/
def _set_dc_offset (self : rx_frontend_core_3000_impl) (flags : ℕ) :
    rx_frontend_core_3000_impl :=
  let s1 := self.poke32 self._rx_fe_offset_i_reg (dc_offset_word flags self._i_dc_off)
  s1.poke32 s1._rx_fe_offset_q_reg (dc_offset_word flags s1._q_dc_off)

/-- The member `set_dc_offset_auto` (lines 147-150). -/
def set_dc_offset_auto (self : rx_frontend_core_3000_impl) (enb : Bool) : Outcome Unit :=
  .returned (self._set_dc_offset (if enb then 0 else OFFSET_FIXED)) ()

/-- The constant `scaler = double(1ul << 29)` of `set_dc_offset`. -/
def scaler : ℚ := ((1 <<< 29 : ℕ) : ℚ)

/-- The member `set_dc_offset` (lines 152-161). -/
def set_dc_offset (self : rx_frontend_core_3000_impl) (off : complex_double) :
    Outcome complex_double :=
  match iround (off.real * scaler) with
  | none => .thrown self
  | some i =>
    let s1 := { self with _i_dc_off := i }
    match iround (off.imag * scaler) with
    | none => .thrown s1
    | some q =>
      let s2 := { s1 with _q_dc_off := q }
      let s3 := s2._set_dc_offset (OFFSET_SET ||| OFFSET_FIXED)
      .returned s3 ⟨(s3._i_dc_off : ℚ) / scaler, (s3._q_dc_off : ℚ) / scaler⟩

end rx_frontend_core_3000_impl

/-- What a call of `fs_to_bits` yields: the word it returns, the `rounding_error`
exception of `boost::math::round`, or a conversion the language leaves undefined. -/
inductive Conversion where
  | value (word : ℕ)
  | rounding_error
  | undefined
deriving DecidableEq, Repr

/-- The helper `fs_to_bits` (lines 47-50): the rounded product converted to `int32_t`
and then to the `uint32_t` return type. A product beyond the double range is an
infinity, on which `boost::math::round` raises `rounding_error`. `undefined` where the
language leaves the expression undefined: a shift count `bits - 1` outside `0 .. 30`,
or a rounded value that no `int32_t` holds. -/
def fs_to_bits (num : ℚ) (bits : ℕ) : Conversion :=
  if 1 ≤ bits ∧ bits ≤ 31 then
    let x := num * (((1 <<< (bits - 1) : ℕ) : ℤ) : ℚ)
    if |x| > DBL_MAX then .rounding_error
    else
      let r := round x
      if -(2 ^ 31) ≤ r ∧ r ≤ 2 ^ 31 - 1 then .value (r % 2 ^ 32).toNat else .undefined
  else .undefined

namespace rx_frontend_core_3000_impl

/-- The member `set_iq_balance` (lines 169-173). -/
def set_iq_balance (self : rx_frontend_core_3000_impl) (cor : complex_double) :
    Outcome Unit :=
  match fs_to_bits cor.real 18 with
  | .undefined => .undefined
  | .rounding_error => .thrown self
  | .value m =>
    let s1 := self.poke32 self._rx_fe_mag_corr_reg m
    match fs_to_bits cor.imag 18 with
    | .undefined => .undefined
    | .rounding_error => .thrown s1
    | .value p => .returned (s1.poke32 s1._rx_fe_phase_corr_reg p) ()

end rx_frontend_core_3000_impl

/-! ## Vocabulary of the specification -/

/-- The `w`-bit two's-complement encoding of the integer `n`. -/
def twos_complement (w : ℕ) (n : ℤ) : ℕ := (n % 2 ^ w).toNat

/-- The integer a `w`-bit field `u` denotes when read as two's complement. -/
def signed_of_bits (w : ℕ) (u : ℕ) : ℤ :=
  if u % 2 ^ w < 2 ^ (w - 1) then ((u % 2 ^ w : ℕ) : ℤ) else ((u % 2 ^ w : ℕ) : ℤ) - 2 ^ w

/-- Saturation of `n` to the range `lo .. hi`. -/
def clamp (lo hi n : ℤ) : ℤ := max lo (min hi n)

/-- The remainder `x mod r` of a rational `x` by a positive rational `r`, in `[0, r)`. -/
def rat_mod (x r : ℚ) : ℚ := x - (⌊x / r⌋ : ℚ) * r

/-- The address on the 32-bit bus of the register with index `k` in a block laid out
from `base` with stride `reg_offset`. -/
def bus_address (base reg_offset k : ℕ) : ℕ := (base + reg_offset * k) % UINT32_MOD

/-! ## Sequences of calls -/

/-- A call of one of the public member functions, with its argument. -/
inductive call where
  | set_adc_rate (rate : ℚ)
  | bypass_all (bypass_en : Bool)
  | set_fe_connection (fe_conn : fe_connection_t)
  | set_dc_offset_auto (enb : Bool)
  | set_dc_offset (off : complex_double)
  | set_iq_balance (cor : complex_double)
deriving DecidableEq, Repr

/-- The object a call leaves behind, whether it returned or threw; `none` after an
undefined conversion. -/
def Outcome.object {α : Type} : Outcome α → Option rx_frontend_core_3000_impl
  | .returned s _ => some s
  | .thrown s => some s
  | .undefined => none

namespace rx_frontend_core_3000_impl

/-- The object after one call; an exception leaves the object as it was when thrown and
the caller carries on with it. -/
def perform (self : rx_frontend_core_3000_impl) (epsilon : ℚ) :
    call → Option rx_frontend_core_3000_impl
  | .set_adc_rate rate => (self.set_adc_rate rate).object
  | .bypass_all bypass_en => (self.bypass_all epsilon bypass_en).object
  | .set_fe_connection fe_conn => (self.set_fe_connection epsilon fe_conn).object
  | .set_dc_offset_auto enb => (self.set_dc_offset_auto enb).object
  | .set_dc_offset off => (self.set_dc_offset off).object
  | .set_iq_balance cor => (self.set_iq_balance cor).object

/-- The object after a sequence of calls, first call first. -/
def run (self : rx_frontend_core_3000_impl) (epsilon : ℚ) :
    List call → Option rx_frontend_core_3000_impl
  | [] => some self
  | c :: cs =>
    match self.perform epsilon c with
    | none => none
    | some s => s.run epsilon cs

/-- The descriptor of the most recent `set_fe_connection` call that returned while the
calls were run from `self`; `cur` when there was none. -/
def last_applied (epsilon : ℚ) (cur : fe_connection_t) (self : rx_frontend_core_3000_impl) :
    List call → fe_connection_t
  | [] => cur
  | c :: cs =>
    match self.perform epsilon c with
    | none => cur
    | some s =>
      match c with
      | .set_fe_connection fe_conn =>
        match self.set_fe_connection epsilon fe_conn with
        | .returned _ _ => last_applied epsilon fe_conn s cs
        | _ => last_applied epsilon cur s cs
      | _ => last_applied epsilon cur s cs

end rx_frontend_core_3000_impl

end uhd

namespace uhd

open rx_frontend_core_3000_impl

/-! ## Shared lemmas -/

theorem UINT32_MOD_eq : UINT32_MOD = 4294967296 := by decide

theorem mapping_reg_val_lt (fe_conn : fe_connection_t) : mapping_reg_val fe_conn < 32 := by
  rcases fe_conn with ⟨m, a, b, c, f⟩
  cases m <;> cases a <;> cases b <;> cases c <;>
    simp [mapping_reg_val, FLAG_DSP_RX_MAPPING_REAL_MODE, FLAG_DSP_RX_MAPPING_DOWNCONVERT,
      FLAG_DSP_RX_MAPPING_SWAP_IQ, FLAG_DSP_RX_MAPPING_INVERT_I, FLAG_DSP_RX_MAPPING_INVERT_Q]

theorem one_mod_UINT32_MOD : 1 % UINT32_MOD = 1 := by decide

theorem mapping_reg_val_mod (fe_conn : fe_connection_t) :
    mapping_reg_val fe_conn % UINT32_MOD = mapping_reg_val fe_conn := by
  have h := mapping_reg_val_lt fe_conn
  rw [UINT32_MOD_eq]
  omega

/-- The asserted condition of lines 137-138 spelled out: the quotient is finite and
within the tolerance of 4, relative to 4 or to the quotient. -/
theorem quarter_rate_check_iff (epsilon r c : ℚ) :
    quarter_rate_check epsilon r c = true ↔
      c ≠ 0 ∧ (abs (4 - |r / c|) ≤ epsilon * 4 ∨ abs (4 - |r / c|) ≤ epsilon * |r / c|) := by
  have h4 : |(4 : ℚ)| = 4 := abs_of_pos (by norm_num)
  unfold quarter_rate_check fp_compare_epsilon_eq
  by_cases hc : c = 0
  · simp [hc]
  · simp [hc, h4, abs_abs]

/-- A quotient of exactly 4 passes the assertion under every tolerance `0 ≤ epsilon`. -/
theorem quarter_rate_check_exact (epsilon r c : ℚ) (heps : 0 ≤ epsilon) (h : |r / c| = 4) :
    quarter_rate_check epsilon r c = true := by
  rw [quarter_rate_check_iff, h]
  refine ⟨?_, Or.inl ?_⟩
  · intro hc
    rw [hc, div_zero, abs_zero] at h
    norm_num at h
  · rw [sub_self, abs_zero]
    linarith

/-- Outcome of `set_fe_connection` when the stored ADC rate is zero. -/
theorem set_fe_connection_rate_zero (self : rx_frontend_core_3000_impl) (epsilon : ℚ)
    (fe_conn : fe_connection_t) (h0 : self._adc_rate = 0) :
    self.set_fe_connection epsilon fe_conn =
      .thrown { self with
        _iface := self._iface ++
          [(self._rx_fe_mapping_reg % UINT32_MOD, mapping_reg_val fe_conn)] } := by
  simp [set_fe_connection, poke32, h0, mapping_reg_val_mod]

/-- Outcome of `set_fe_connection` for a mode other than `HETERODYNE`. -/
theorem set_fe_connection_not_het (self : rx_frontend_core_3000_impl) (epsilon : ℚ)
    (fe_conn : fe_connection_t) (h0 : self._adc_rate ≠ 0)
    (hm : fe_conn.get_sampling_mode ≠ sampling_t.HETERODYNE) :
    self.set_fe_connection epsilon fe_conn =
      .returned { self with
        _iface := self._iface ++
          [(self._rx_fe_mapping_reg % UINT32_MOD, mapping_reg_val fe_conn)]
        _fe_conn := fe_conn } () := by
  simp [set_fe_connection, poke32, h0, hm, mapping_reg_val_mod]

/-- Outcome of `set_fe_connection` in `HETERODYNE` mode when the assertion holds. -/
theorem set_fe_connection_het_ok (self : rx_frontend_core_3000_impl) (epsilon : ℚ)
    (fe_conn : fe_connection_t) (h0 : self._adc_rate ≠ 0)
    (hm : fe_conn.get_sampling_mode = sampling_t.HETERODYNE)
    (h4 : quarter_rate_check epsilon self._adc_rate
      (cordic_freq fe_conn.get_if_freq self._adc_rate) = true) :
    self.set_fe_connection epsilon fe_conn =
      .returned { self with
        _iface := self._iface ++
          [(self._rx_fe_mapping_reg % UINT32_MOD, mapping_reg_val fe_conn),
           (self._rx_fe_het_cordic_phase_reg % UINT32_MOD,
            if 0 < cordic_freq fe_conn.get_if_freq self._adc_rate then 0 else 1)]
        _fe_conn := fe_conn } () := by
  by_cases hc : 0 < cordic_freq fe_conn.get_if_freq self._adc_rate
  · simp [set_fe_connection, poke32, h0, hm, mapping_reg_val_mod, h4, hc, one_mod_UINT32_MOD]
  · simp [set_fe_connection, poke32, h0, hm, mapping_reg_val_mod, h4, hc, one_mod_UINT32_MOD]

/-- Outcome of `set_fe_connection` in `HETERODYNE` mode when the assertion fails. -/
theorem set_fe_connection_het_fail (self : rx_frontend_core_3000_impl) (epsilon : ℚ)
    (fe_conn : fe_connection_t) (h0 : self._adc_rate ≠ 0)
    (hm : fe_conn.get_sampling_mode = sampling_t.HETERODYNE)
    (h4 : quarter_rate_check epsilon self._adc_rate
      (cordic_freq fe_conn.get_if_freq self._adc_rate) = false) :
    self.set_fe_connection epsilon fe_conn =
      .thrown { self with
        _iface := self._iface ++
          [(self._rx_fe_mapping_reg % UINT32_MOD, mapping_reg_val fe_conn)] } := by
  simp [set_fe_connection, poke32, h0, hm, mapping_reg_val_mod, h4]

/-- The quarter-rate example: ADC rate 40 MHz and IF 10 MHz give -10 MHz. -/
theorem cordic_freq_quarter_rate : cordic_freq 10000000 40000000 = -10000000 := by
  norm_num [cordic_freq, aliased_freq, fmod, trunc, sign, abs_of_pos]

/-- The quarter-rate example passes the assertion under every tolerance `0 ≤ epsilon`. -/
theorem quarter_rate_check_example (epsilon : ℚ) (heps : 0 ≤ epsilon) :
    quarter_rate_check epsilon 40000000 (cordic_freq 10000000 40000000) = true := by
  apply quarter_rate_check_exact _ _ _ heps
  rw [cordic_freq_quarter_rate]
  norm_num [abs_of_neg]

/-- The quarter-rate example end to end: on a core at base 0 with stride 4 and ADC rate
40 MHz, the heterodyne descriptor with IF 10 MHz is accepted under every tolerance
`0 ≤ epsilon`; 18 goes to the mapping register (address 16), then 1 to the mixer-phase
register (address 20). -/
theorem set_fe_connection_quarter_rate_example (epsilon : ℚ) (heps : 0 ≤ epsilon) :
    ({ make [] ⟨sampling_t.QUADRATURE, false, false, false, 0⟩ 0 4 with
        _adc_rate := 40000000 } : rx_frontend_core_3000_impl).set_fe_connection epsilon
      ⟨sampling_t.HETERODYNE, false, false, false, 10000000⟩ =
    .returned
      { make [] ⟨sampling_t.QUADRATURE, false, false, false, 0⟩ 0 4 with
        _adc_rate := 40000000
        _iface := [(16, 18), (20, 1)]
        _fe_conn := ⟨sampling_t.HETERODYNE, false, false, false, 10000000⟩ } () := by
  have h := set_fe_connection_het_ok
    ({ make [] ⟨sampling_t.QUADRATURE, false, false, false, 0⟩ 0 4 with
        _adc_rate := 40000000 } : rx_frontend_core_3000_impl) epsilon
    ⟨sampling_t.HETERODYNE, false, false, false, 10000000⟩ (by norm_num) rfl
    (quarter_rate_check_example epsilon heps)
  have hneg : ¬ (0 : ℚ) < -10000000 := by norm_num
  rw [h]
  simp only [cordic_freq_quarter_rate, if_neg hneg]
  rfl

/-! ## Channel mapping and the heterodyne mixer -/

/-- C1: for every object and every connection descriptor, `set_fe_connection` (whether
it returns or throws) first pokes the mapping register with `mapping_reg_val`, followed
at most by one poke of the mixer-phase register; that word is (2 for `REAL`, 2|16 for
`HETERODYNE`, 0 otherwise) OR (1 if swap-IQ) OR (4 if invert-Q) OR (8 if invert-I); it is
below 32, so bits 5, 6, 7 and all higher bits are zero, and bit 4 is set iff the mode is
`HETERODYNE`. This holds under every tolerance of the quarter-rate comparison. -/
theorem set_fe_connection_mapping_word (self : rx_frontend_core_3000_impl) (epsilon : ℚ)
    (fe_conn : fe_connection_t) :
    (∃ s' rest,
      (self.set_fe_connection epsilon fe_conn = .returned s' () ∨
        self.set_fe_connection epsilon fe_conn = .thrown s') ∧
      s'._iface = self._iface ++
        (self._rx_fe_mapping_reg % UINT32_MOD, mapping_reg_val fe_conn) :: rest ∧
      (rest = [] ∨ (fe_conn.get_sampling_mode = sampling_t.HETERODYNE ∧
        ∃ b, rest = [(self._rx_fe_het_cordic_phase_reg % UINT32_MOD, b)]))) ∧
    mapping_reg_val fe_conn =
      ((match fe_conn.get_sampling_mode with
        | .REAL => 2
        | .HETERODYNE => 2 ||| 16
        | .QUADRATURE => 0) |||
       (if fe_conn.is_iq_swapped then 1 else 0) |||
       (if fe_conn.is_q_inverted then 4 else 0) |||
       (if fe_conn.is_i_inverted then 8 else 0)) ∧
    mapping_reg_val fe_conn < 32 ∧
    (∀ i, 5 ≤ i → (mapping_reg_val fe_conn).testBit i = false) ∧
    ((mapping_reg_val fe_conn).testBit 4 = true ↔
      fe_conn.get_sampling_mode = sampling_t.HETERODYNE) := by
  refine ⟨?_, ?_, mapping_reg_val_lt fe_conn, ?_, ?_⟩
  · by_cases h0 : self._adc_rate = 0
    · exact ⟨_, [], Or.inr (set_fe_connection_rate_zero self epsilon fe_conn h0), rfl,
        Or.inl rfl⟩
    · by_cases hm : fe_conn.get_sampling_mode = sampling_t.HETERODYNE
      · cases h4 : quarter_rate_check epsilon self._adc_rate
            (cordic_freq fe_conn.get_if_freq self._adc_rate) with
        | true =>
          exact ⟨_, _, Or.inl (set_fe_connection_het_ok self epsilon fe_conn h0 hm h4), rfl,
            Or.inr ⟨hm, _, rfl⟩⟩
        | false =>
          exact ⟨_, [], Or.inr (set_fe_connection_het_fail self epsilon fe_conn h0 hm h4),
            rfl, Or.inl rfl⟩
      · exact ⟨_, [], Or.inl (set_fe_connection_not_het self epsilon fe_conn h0 hm), rfl,
          Or.inl rfl⟩
  · rcases fe_conn with ⟨m, a, b, c, f⟩
    cases m <;> cases a <;> cases b <;> cases c <;>
      simp [mapping_reg_val, FLAG_DSP_RX_MAPPING_REAL_MODE, FLAG_DSP_RX_MAPPING_DOWNCONVERT,
        FLAG_DSP_RX_MAPPING_SWAP_IQ, FLAG_DSP_RX_MAPPING_INVERT_I,
        FLAG_DSP_RX_MAPPING_INVERT_Q]
  · intro i hi
    apply Nat.testBit_lt_two_pow
    calc mapping_reg_val fe_conn < 2 ^ 5 := mapping_reg_val_lt fe_conn
      _ ≤ 2 ^ i := Nat.pow_le_pow_right (by decide) hi
  · rcases fe_conn with ⟨m, a, b, c, f⟩
    cases m <;> cases a <;> cases b <;> cases c <;>
      simp [mapping_reg_val, FLAG_DSP_RX_MAPPING_REAL_MODE, FLAG_DSP_RX_MAPPING_DOWNCONVERT,
        FLAG_DSP_RX_MAPPING_SWAP_IQ, FLAG_DSP_RX_MAPPING_INVERT_I,
        FLAG_DSP_RX_MAPPING_INVERT_Q, Nat.testBit]

theorem and_mod_two_pow (a b n : ℕ) : (a &&& b) % 2 ^ n = (a % 2 ^ n) &&& (b % 2 ^ n) := by
  apply Nat.eq_of_testBit_eq
  intro i
  simp only [Nat.testBit_mod_two_pow, Nat.testBit_and]
  cases decide (i < n) <;> simp

theorem or_mod_two_pow (a b n : ℕ) : (a ||| b) % 2 ^ n = (a % 2 ^ n) ||| (b % 2 ^ n) := by
  apply Nat.eq_of_testBit_eq
  intro i
  simp only [Nat.testBit_mod_two_pow, Nat.testBit_or]
  cases decide (i < n) <;> simp

theorem twos_complement_lt (w : ℕ) (n : ℤ) : twos_complement w n < 2 ^ w := by
  unfold twos_complement
  have h1 : 0 ≤ n % 2 ^ w := Int.emod_nonneg _ (by positivity)
  have h2 : n % 2 ^ w < 2 ^ w := Int.emod_lt_of_pos _ (by positivity)
  zify
  rw [Int.toNat_of_nonneg h1]
  exact_mod_cast h2

/-- The 32-bit word poked by `_set_dc_offset`: the flags over the 30-bit
two's-complement encoding of the cached offset. -/
theorem dc_offset_word_mod (flags : ℕ) (off : ℤ) (hf : flags < 2 ^ 32) :
    dc_offset_word flags off % UINT32_MOD = flags ||| twos_complement 30 off := by
  have hM : NOT_FLAG_MASK % 2 ^ 32 = 2 ^ 30 - 1 := by decide
  have hX : to_ulong off % 2 ^ 32 % 2 ^ 30 = twos_complement 30 off := by
    unfold to_ulong twos_complement
    omega
  unfold dc_offset_word UINT32_MOD
  rw [or_mod_two_pow, and_mod_two_pow, hM, Nat.and_pow_two_sub_one_eq_mod, hX,
    Nat.mod_eq_of_lt hf]

/-- Reading a word `flags ||| low` back: the low 30 bits are `low`, bits 30 and 31 are
those of `flags`, when `flags` has no bit below 30 and `low` none from 30 up. -/
theorem flags_or_low (flags low : ℕ) (hf : flags % 2 ^ 30 = 0) (hl : low < 2 ^ 30) :
    (flags ||| low) % 2 ^ 30 = low ∧
    (flags ||| low).testBit 30 = flags.testBit 30 ∧
    (flags ||| low).testBit 31 = flags.testBit 31 := by
  refine ⟨?_, ?_, ?_⟩
  · rw [or_mod_two_pow, hf, Nat.zero_or, Nat.mod_eq_of_lt hl]
  · rw [Nat.testBit_or, Nat.testBit_lt_two_pow hl, Bool.or_false]
  · rw [Nat.testBit_or, Nat.testBit_lt_two_pow (lt_trans hl (by decide)), Bool.or_false]

theorem round_sub_le (v : ℚ) : |((round v : ℤ) : ℚ) - v| ≤ 1 / 2 := by
  unfold round
  rw [abs_le]
  split_ifs with h
  · have h1 := Int.le_ceil (v - 1 / 2)
    have h2 := Int.ceil_lt_add_one (v - 1 / 2)
    constructor <;> linarith
  · have h1 := Int.floor_le (v + 1 / 2)
    have h2 := Int.lt_floor_add_one (v + 1 / 2)
    constructor <;> linarith

theorem round_intCast (n : ℤ) : round (n : ℚ) = n := by
  unfold round
  split_ifs with h
  · rw [Int.ceil_eq_iff]
    constructor <;> linarith
  · rw [Int.floor_eq_iff]
    constructor <;> linarith

theorem round_lt_iff (v : ℚ) (n : ℤ) (hn : 1 ≤ n) : round v < n ↔ v < (n : ℚ) - 1 / 2 := by
  have hn' : (1 : ℚ) ≤ (n : ℚ) := by exact_mod_cast hn
  unfold round
  split_ifs with h
  · constructor
    · intro _
      linarith
    · intro _
      have h2 := Int.ceil_lt_add_one (v - 1 / 2)
      have h3 : ((⌈v - 1 / 2⌉ : ℤ) : ℚ) < (n : ℚ) := by linarith
      exact_mod_cast h3
  · rw [Int.floor_lt]
    constructor <;> intro h' <;> linarith

theorem scaler_eq : scaler = 536870912 := by
  have h : (1 <<< 29 : ℕ) = 536870912 := by decide
  unfold scaler
  rw [h]
  norm_num

/-- Rounded scaled component of an offset in `[-1, 1]`: between `-2^29` and `2^29`. -/
theorem round_scaled_bounds (x : ℚ) (h1 : -1 ≤ x) (h2 : x ≤ 1) :
    -(2 ^ 29) ≤ round (x * scaler) ∧ round (x * scaler) ≤ 2 ^ 29 := by
  have h := abs_le.mp (round_sub_le (x * scaler))
  rw [scaler_eq] at h ⊢
  constructor
  · have : (-(2 ^ 29 : ℤ) : ℚ) - 1 < ((round (x * 536870912) : ℤ) : ℚ) := by
      push_cast
      linarith [h.1]
    have h3 : -(2 ^ 29 : ℤ) - 1 < round (x * 536870912) := by exact_mod_cast this
    omega
  · have : ((round (x * 536870912) : ℤ) : ℚ) < ((2 ^ 29 : ℤ) : ℚ) + 1 := by
      push_cast
      linarith [h.2]
    have h3 : round (x * 536870912) < (2 ^ 29 : ℤ) + 1 := by exact_mod_cast this
    omega

theorem iround_scaled (x : ℚ) (h1 : -1 ≤ x) (h2 : x ≤ 1) :
    iround (x * scaler) = some (round (x * scaler)) := by
  have h := round_scaled_bounds x h1 h2
  unfold iround
  rw [if_pos]
  constructor <;> omega

/-- Outcome of `set_dc_offset` once both roundings fit an `int`. -/
theorem set_dc_offset_of_iround (self : rx_frontend_core_3000_impl) (off : complex_double)
    (i q : ℤ) (hi : iround (off.real * scaler) = some i)
    (hq : iround (off.imag * scaler) = some q) :
    self.set_dc_offset off =
      .returned { self with
        _i_dc_off := i
        _q_dc_off := q
        _iface := self._iface ++
          [(self._rx_fe_offset_i_reg % UINT32_MOD,
              (OFFSET_SET ||| OFFSET_FIXED) ||| twos_complement 30 i),
           (self._rx_fe_offset_q_reg % UINT32_MOD,
              (OFFSET_SET ||| OFFSET_FIXED) ||| twos_complement 30 q)] }
        ⟨(i : ℚ) / scaler, (q : ℚ) / scaler⟩ := by
  have hf : OFFSET_SET ||| OFFSET_FIXED < 2 ^ 32 := by decide
  simp [set_dc_offset, hi, hq, _set_dc_offset, poke32, dc_offset_word_mod _ _ hf]

/-- Outcome of `set_dc_offset_auto`. -/
theorem set_dc_offset_auto_eq (self : rx_frontend_core_3000_impl) (enb : Bool) :
    self.set_dc_offset_auto enb =
      .returned { self with
        _iface := self._iface ++
          [(self._rx_fe_offset_i_reg % UINT32_MOD,
              (if enb then 0 else OFFSET_FIXED) ||| twos_complement 30 self._i_dc_off),
           (self._rx_fe_offset_q_reg % UINT32_MOD,
              (if enb then 0 else OFFSET_FIXED) ||| twos_complement 30 self._q_dc_off)] }
        () := by
  have hf : (if enb then 0 else OFFSET_FIXED) < 2 ^ 32 := by
    cases enb <;> decide
  simp [set_dc_offset_auto, _set_dc_offset, poke32, dc_offset_word_mod _ _ hf]

theorem iround_scaler_one : iround (1 * scaler) = some 536870912 := by
  rw [scaler_eq]
  norm_num [iround, round]

theorem iround_scaler_zero : iround (0 * scaler) = some 0 := by
  norm_num [iround, round]

theorem two_pow_29_cast : ((2 : ℚ) ^ 29) = scaler := by
  rw [scaler_eq]
  norm_num

/-- Decoding the low 30 bits of a poked word whose field encodes `n`. -/
theorem signed_of_bits_field (w : ℕ) (n : ℤ) (hw : w % 2 ^ 30 = twos_complement 30 n)
    (h1 : -(2 ^ 29) ≤ n) (h2 : n ≤ 2 ^ 29) :
    signed_of_bits 30 w = if n = 2 ^ 29 then -(2 ^ 29) else n := by
  unfold signed_of_bits
  rw [hw]
  unfold twos_complement
  norm_num
  split_ifs <;> omega

/-- The outcome of `set_dc_offset` for components in `[-1, 1]`. -/
theorem set_dc_offset_in_range (self : rx_frontend_core_3000_impl) (off : complex_double)
    (hre1 : -1 ≤ off.real) (hre2 : off.real ≤ 1) (him1 : -1 ≤ off.imag)
    (him2 : off.imag ≤ 1) :
    self.set_dc_offset off =
      .returned { self with
        _i_dc_off := round (off.real * scaler)
        _q_dc_off := round (off.imag * scaler)
        _iface := self._iface ++
          [(self._rx_fe_offset_i_reg % UINT32_MOD,
              (OFFSET_SET ||| OFFSET_FIXED) ||| twos_complement 30 (round (off.real * scaler))),
           (self._rx_fe_offset_q_reg % UINT32_MOD,
              (OFFSET_SET ||| OFFSET_FIXED) |||
                twos_complement 30 (round (off.imag * scaler)))] }
        ⟨(round (off.real * scaler) : ℚ) / scaler, (round (off.imag * scaler) : ℚ) / scaler⟩ :=
  set_dc_offset_of_iround self off _ _ (iround_scaled _ hre1 hre2) (iround_scaled _ him1 him2)

/-- Bits of the word `set_dc_offset` pokes for a cached offset `n`. -/
theorem set_fixed_word (n : ℤ) :
    (OFFSET_SET ||| OFFSET_FIXED) ||| twos_complement 30 n < 2 ^ 32 ∧
    ((OFFSET_SET ||| OFFSET_FIXED) ||| twos_complement 30 n).testBit 31 = true ∧
    ((OFFSET_SET ||| OFFSET_FIXED) ||| twos_complement 30 n).testBit 30 = true ∧
    ((OFFSET_SET ||| OFFSET_FIXED) ||| twos_complement 30 n) % 2 ^ 30 =
      twos_complement 30 n := by
  have hl := twos_complement_lt 30 n
  have h := flags_or_low (OFFSET_SET ||| OFFSET_FIXED) _ (by decide) hl
  refine ⟨Nat.or_lt_two_pow (by decide) (lt_trans hl (by decide)), ?_, ?_, h.1⟩
  · rw [h.2.2]
    decide
  · rw [h.2.1]
    decide

/-- The clamp to the signed 30-bit range leaves a rounded value below `2^29` alone. -/
theorem clamp_of_lt (n : ℤ) (h1 : -(2 ^ 29) ≤ n) (h2 : n < 2 ^ 29) :
    clamp (-(2 ^ 29)) (2 ^ 29 - 1) n = n := by
  unfold clamp
  rw [min_eq_right (by omega), max_eq_right h1]

/-- The rounded scaled component stays below `2^29` exactly below `1 - 2^-30`. -/
theorem round_scaled_lt_iff (x : ℚ) : round (x * scaler) < 2 ^ 29 ↔ x < 1 - 1 / 2 ^ 30 := by
  have h := round_lt_iff (x * scaler) (2 ^ 29) (by norm_num)
  rw [h, scaler_eq]
  constructor <;> intro h' <;> norm_num at h' ⊢ <;> linarith

/-- C4, counterexample: for the offset `1.0 + 0i` the I word is `0xE0000000`; its low 30
bits are `0x20000000`, not the encoding `0x1FFFFFFF` of the rounded value `2^29` clamped
to `[-2^29, 2^29 - 1]`. -/
theorem set_dc_offset_one_not_clamped :
    (make [] ⟨sampling_t.QUADRATURE, false, false, false, 0⟩ 0 4).set_dc_offset ⟨1, 0⟩ =
      .returned { make [] ⟨sampling_t.QUADRATURE, false, false, false, 0⟩ 0 4 with
        _i_dc_off := 536870912
        _q_dc_off := 0
        _iface := [(8, 3758096384), (12, 3221225472)] } ⟨1, 0⟩ ∧
    3758096384 % 2 ^ 30 = 536870912 ∧
    twos_complement 30 (clamp (-(2 ^ 29)) (2 ^ 29 - 1) (round (1 * 2 ^ 29))) = 536870911 := by
  refine ⟨?_, by decide, ?_⟩
  · rw [set_dc_offset_of_iround
      (make [] ⟨sampling_t.QUADRATURE, false, false, false, 0⟩ 0 4) ⟨1, 0⟩ 536870912 0
      iround_scaler_one iround_scaler_zero, scaler_eq]
    norm_num
    decide
  · have h : round (1 * 2 ^ 29) = 536870912 := by norm_num [round]
    rw [h]
    decide

/-- C4, amended: for every offset with real and imaginary parts in `[-1, 1]`,
`set_dc_offset` returns after poking the I-offset and then the Q-offset register with
32-bit words whose bit 31 (fixed) and bit 30 (set) are 1 and whose low 30 bits are the
30-bit two's-complement encoding of `round(component * 2^29)`, taken without clamping;
that is the encoding of the value clamped to `[-2^29, 2^29 - 1]` whenever the component
is below `1 - 2^-30`. -/
theorem set_dc_offset_words (self : rx_frontend_core_3000_impl) (off : complex_double)
    (hre1 : -1 ≤ off.real) (hre2 : off.real ≤ 1) (him1 : -1 ≤ off.imag)
    (him2 : off.imag ≤ 1) :
    ∃ s' y wI wQ, self.set_dc_offset off = .returned s' y ∧
      s'._iface = self._iface ++
        [(self._rx_fe_offset_i_reg % UINT32_MOD, wI),
         (self._rx_fe_offset_q_reg % UINT32_MOD, wQ)] ∧
      (wI < 2 ^ 32 ∧ wI.testBit 31 = true ∧ wI.testBit 30 = true ∧
        wI % 2 ^ 30 = twos_complement 30 (round (off.real * 2 ^ 29)) ∧
        (off.real < 1 - 1 / 2 ^ 30 → wI % 2 ^ 30 =
          twos_complement 30 (clamp (-(2 ^ 29)) (2 ^ 29 - 1) (round (off.real * 2 ^ 29))))) ∧
      (wQ < 2 ^ 32 ∧ wQ.testBit 31 = true ∧ wQ.testBit 30 = true ∧
        wQ % 2 ^ 30 = twos_complement 30 (round (off.imag * 2 ^ 29)) ∧
        (off.imag < 1 - 1 / 2 ^ 30 → wQ % 2 ^ 30 =
          twos_complement 30 (clamp (-(2 ^ 29)) (2 ^ 29 - 1) (round (off.imag * 2 ^ 29))))) := by
  have hI := set_fixed_word (round (off.real * scaler))
  have hQ := set_fixed_word (round (off.imag * scaler))
  have bI := round_scaled_bounds off.real hre1 hre2
  have bQ := round_scaled_bounds off.imag him1 him2
  refine ⟨_, _, _, _, set_dc_offset_in_range self off hre1 hre2 him1 him2, rfl, ?_, ?_⟩
  · rw [two_pow_29_cast]
    refine ⟨hI.1, hI.2.1, hI.2.2.1, hI.2.2.2, fun hlt => ?_⟩
    rw [clamp_of_lt _ bI.1 ((round_scaled_lt_iff _).mpr hlt)]
    exact hI.2.2.2
  · rw [two_pow_29_cast]
    refine ⟨hQ.1, hQ.2.1, hQ.2.2.1, hQ.2.2.2, fun hlt => ?_⟩
    rw [clamp_of_lt _ bQ.1 ((round_scaled_lt_iff _).mpr hlt)]
    exact hQ.2.2.2

/-- Witness for C4: the offset `1/2 - i/4` on a core built at base 0 with stride 4. -/
theorem set_dc_offset_words_witness :
    ∃ s' y wI wQ,
      (make [] ⟨sampling_t.QUADRATURE, false, false, false, 0⟩ 0 4).set_dc_offset
        ⟨1 / 2, -1 / 4⟩ = .returned s' y ∧
      s'._iface = [(8, wI), (12, wQ)] ∧
      wI.testBit 31 = true ∧ wI.testBit 30 = true ∧ wI % 2 ^ 30 = 268435456 ∧
      wQ.testBit 31 = true ∧ wQ.testBit 30 = true ∧ wQ % 2 ^ 30 = 939524096 := by
  obtain ⟨s', y, wI, wQ, h, hlog, hI, hQ⟩ := set_dc_offset_words
    (make [] ⟨sampling_t.QUADRATURE, false, false, false, 0⟩ 0 4) ⟨1 / 2, -1 / 4⟩
    (by norm_num) (by norm_num) (by norm_num) (by norm_num)
  have e1 : round ((1 / 2 : ℚ) * 2 ^ 29) = 268435456 := by norm_num [round]
  have e2 : round ((-1 / 4 : ℚ) * 2 ^ 29) = -134217728 := by
    have c : (-1 / 4 : ℚ) * 2 ^ 29 = ((-134217728 : ℤ) : ℚ) := by norm_num
    rw [c, round_intCast]
  refine ⟨s', y, wI, wQ, h, hlog, hI.2.1, hI.2.2.1, ?_, hQ.2.1, hQ.2.2.1, ?_⟩
  · rw [hI.2.2.2.1, e1]
    decide
  · rw [hQ.2.2.2.1, e2]
    decide

/-- C5, counterexample: for the offset `1.0 + 0i` the call returns `1.0 + 0i`, yet the
low 30 bits of the I word `0xE0000000` it poked, read as a signed 30-bit integer and
divided by `2^29`, give `-1`. -/
theorem set_dc_offset_one_returns_unapplied :
    (make [] ⟨sampling_t.QUADRATURE, false, false, false, 0⟩ 0 4).set_dc_offset ⟨1, 0⟩ =
      .returned { make [] ⟨sampling_t.QUADRATURE, false, false, false, 0⟩ 0 4 with
        _i_dc_off := 536870912
        _q_dc_off := 0
        _iface := [(8, 3758096384), (12, 3221225472)] } ⟨1, 0⟩ ∧
    ((signed_of_bits 30 3758096384 : ℤ) : ℚ) / 2 ^ 29 = -1 ∧
    (1 : ℚ) ≠ -1 := by
  refine ⟨?_, ?_, by norm_num⟩
  · rw [set_dc_offset_of_iround
      (make [] ⟨sampling_t.QUADRATURE, false, false, false, 0⟩ 0 4) ⟨1, 0⟩ 536870912 0
      iround_scaler_one iround_scaler_zero, scaler_eq]
    norm_num
    decide
  · have h : signed_of_bits 30 3758096384 = -536870912 := by decide
    rw [h]
    norm_num

/-- C5, amended: for every offset with components in `[-1, 1]`, each component returned
by `set_dc_offset` is `round(component * 2^29) / 2^29`; it equals `n / 2^29`, where `n` is
the low 30 bits of the word poked to the corresponding register read as a signed 30-bit
two's-complement integer, exactly when the component is below `1 - 2^-30`. -/
theorem set_dc_offset_returns_applied (self : rx_frontend_core_3000_impl)
    (off : complex_double) (hre1 : -1 ≤ off.real) (hre2 : off.real ≤ 1)
    (him1 : -1 ≤ off.imag) (him2 : off.imag ≤ 1) :
    ∃ s' y wI wQ, self.set_dc_offset off = .returned s' y ∧
      s'._iface = self._iface ++
        [(self._rx_fe_offset_i_reg % UINT32_MOD, wI),
         (self._rx_fe_offset_q_reg % UINT32_MOD, wQ)] ∧
      y.real = ((round (off.real * 2 ^ 29) : ℤ) : ℚ) / 2 ^ 29 ∧
      y.imag = ((round (off.imag * 2 ^ 29) : ℤ) : ℚ) / 2 ^ 29 ∧
      (y.real = ((signed_of_bits 30 wI : ℤ) : ℚ) / 2 ^ 29 ↔ off.real < 1 - 1 / 2 ^ 30) ∧
      (y.imag = ((signed_of_bits 30 wQ : ℤ) : ℚ) / 2 ^ 29 ↔ off.imag < 1 - 1 / 2 ^ 30) := by
  have key : ∀ x : ℚ, -1 ≤ x → x ≤ 1 →
      (((round (x * scaler) : ℤ) : ℚ) / scaler =
        ((signed_of_bits 30 ((OFFSET_SET ||| OFFSET_FIXED) |||
          twos_complement 30 (round (x * scaler))) : ℤ) : ℚ) / scaler ↔
        x < 1 - 1 / 2 ^ 30) := by
    intro x h1 h2
    have b := round_scaled_bounds x h1 h2
    have hs : scaler ≠ 0 := by
      rw [scaler_eq]
      norm_num
    rw [signed_of_bits_field _ _ (set_fixed_word _).2.2.2 b.1 b.2, div_left_inj' hs,
      Int.cast_inj, ← round_scaled_lt_iff]
    split_ifs with h <;> omega
  refine ⟨_, _, _, _, set_dc_offset_in_range self off hre1 hre2 him1 him2, rfl, ?_, ?_, ?_, ?_⟩
  · rw [two_pow_29_cast]
  · rw [two_pow_29_cast]
  · rw [two_pow_29_cast]
    exact key off.real hre1 hre2
  · rw [two_pow_29_cast]
    exact key off.imag him1 him2

/-- Witness for C5: the offset `1/2 - i/4`; both returned components are the decoded
register fields. -/
theorem set_dc_offset_returns_applied_witness :
    ∃ s' y wI wQ,
      (make [] ⟨sampling_t.QUADRATURE, false, false, false, 0⟩ 0 4).set_dc_offset
        ⟨1 / 2, -1 / 4⟩ = .returned s' y ∧
      s'._iface = [(8, wI), (12, wQ)] ∧
      y.real = ((signed_of_bits 30 wI : ℤ) : ℚ) / 2 ^ 29 ∧
      y.imag = ((signed_of_bits 30 wQ : ℤ) : ℚ) / 2 ^ 29 := by
  obtain ⟨s', y, wI, wQ, h, hlog, _, _, hI, hQ⟩ := set_dc_offset_returns_applied
    (make [] ⟨sampling_t.QUADRATURE, false, false, false, 0⟩ 0 4) ⟨1 / 2, -1 / 4⟩
    (by norm_num) (by norm_num) (by norm_num) (by norm_num)
  exact ⟨s', y, wI, wQ, h, hlog, hI.mpr (by norm_num), hQ.mpr (by norm_num)⟩

/-- Rounding a value already on the grid: `iround ((n / scaler) * scaler) = n`. -/
theorem iround_grid (n : ℤ) (h1 : -(2 ^ 29) ≤ n) (h2 : n ≤ 2 ^ 29) :
    iround ((n : ℚ) / scaler * scaler) = some n := by
  have hs : scaler ≠ 0 := by
    rw [scaler_eq]
    norm_num
  rw [div_mul_cancel₀ _ hs]
  unfold iround
  rw [round_intCast, if_pos]
  constructor <;> omega

/-- C6: quantization by `set_dc_offset` is idempotent. For every offset with components
in `[-1, 1]` the call returns some `y`; `set_dc_offset(y)` on the resulting object returns
`y` again and pokes the same two (address, word) pairs as the first call did. -/
theorem set_dc_offset_idempotent (self : rx_frontend_core_3000_impl) (off : complex_double)
    (hre1 : -1 ≤ off.real) (hre2 : off.real ≤ 1) (him1 : -1 ≤ off.imag)
    (him2 : off.imag ≤ 1) :
    ∃ s1 y s2 pI pQ, self.set_dc_offset off = .returned s1 y ∧
      s1.set_dc_offset y = .returned s2 y ∧
      s1._iface = self._iface ++ [pI, pQ] ∧
      s2._iface = s1._iface ++ [pI, pQ] := by
  have bI := round_scaled_bounds off.real hre1 hre2
  have bQ := round_scaled_bounds off.imag him1 him2
  have h1 := set_dc_offset_in_range self off hre1 hre2 him1 him2
  have h2 := fun s1 : rx_frontend_core_3000_impl =>
    set_dc_offset_of_iround s1
      ⟨(round (off.real * scaler) : ℚ) / scaler, (round (off.imag * scaler) : ℚ) / scaler⟩
      _ _ (iround_grid _ bI.1 bI.2) (iround_grid _ bQ.1 bQ.2)
  exact ⟨_, _, _, _, _, h1, h2 _, rfl, rfl⟩

/-- Witness for C6: the offset `1/3 - 2i/3`, which is not on the quantization grid. -/
theorem set_dc_offset_idempotent_witness :
    ∃ s1 y s2 pI pQ,
      (make [] ⟨sampling_t.QUADRATURE, false, false, false, 0⟩ 0 4).set_dc_offset
        ⟨1 / 3, -2 / 3⟩ = .returned s1 y ∧
      s1.set_dc_offset y = .returned s2 y ∧
      s1._iface = [pI, pQ] ∧
      s2._iface = [pI, pQ, pI, pQ] := by
  obtain ⟨s1, y, s2, pI, pQ, h1, h2, h3, h4⟩ := set_dc_offset_idempotent
    (make [] ⟨sampling_t.QUADRATURE, false, false, false, 0⟩ 0 4) ⟨1 / 3, -2 / 3⟩
    (by norm_num) (by norm_num) (by norm_num) (by norm_num)
  refine ⟨s1, y, s2, pI, pQ, h1, h2, h3, ?_⟩
  rw [h4, h3]
  rfl

/-- Distance between a component and its quantization. -/
theorem quantize_error (x : ℚ) : |((round (x * scaler) : ℤ) : ℚ) / scaler - x| ≤ 1 / 2 ^ 30 := by
  have h := abs_le.mp (round_sub_le (x * scaler))
  rw [scaler_eq] at h ⊢
  rw [abs_le]
  constructor
  · rw [le_sub_iff_add_le, le_div_iff₀ (by norm_num)]
    linarith [h.1]
  · rw [sub_le_iff_le_add, div_le_iff₀ (by norm_num)]
    linarith [h.2]

/-- C7: for every offset with components in `[-1, 1]`, each component of the value
returned by `set_dc_offset` is within `2^-29` of the requested component. -/
theorem set_dc_offset_error_bound (self : rx_frontend_core_3000_impl) (off : complex_double)
    (hre1 : -1 ≤ off.real) (hre2 : off.real ≤ 1) (him1 : -1 ≤ off.imag)
    (him2 : off.imag ≤ 1) :
    ∃ s' y, self.set_dc_offset off = .returned s' y ∧
      |y.real - off.real| ≤ 1 / 2 ^ 29 ∧ |y.imag - off.imag| ≤ 1 / 2 ^ 29 := by
  refine ⟨_, _, set_dc_offset_in_range self off hre1 hre2 him1 him2, ?_, ?_⟩
  · exact le_trans (quantize_error off.real) (by norm_num)
  · exact le_trans (quantize_error off.imag) (by norm_num)

/-- Witness for C7: the offset `1/3 - 2i/3`. -/
theorem set_dc_offset_error_bound_witness :
    ∃ s' y,
      (make [] ⟨sampling_t.QUADRATURE, false, false, false, 0⟩ 0 4).set_dc_offset
        ⟨1 / 3, -2 / 3⟩ = .returned s' y ∧
      |y.real - 1 / 3| ≤ 1 / 2 ^ 29 ∧ |y.imag - -2 / 3| ≤ 1 / 2 ^ 29 :=
  set_dc_offset_error_bound
    (make [] ⟨sampling_t.QUADRATURE, false, false, false, 0⟩ 0 4) ⟨1 / 3, -2 / 3⟩
    (by norm_num) (by norm_num) (by norm_num) (by norm_num)

/-! ## IQ balance -/

/-- Every `int32_t` magnitude is far below the largest finite `double`. -/
theorem DBL_MAX_ge : (2147483648 : ℚ) ≤ DBL_MAX := by
  norm_num [DBL_MAX]

/-- Value of `fs_to_bits num 18` when `num * 2^17` is the integer `n` of `int32_t` range. -/
theorem fs_to_bits_18_of_int (num : ℚ) (n : ℤ) (h : num * 131072 = (n : ℚ))
    (h1 : -(2 ^ 31) ≤ n) (h2 : n ≤ 2 ^ 31 - 1) :
    fs_to_bits num 18 = .value (n % 2 ^ 32).toNat := by
  have e : (((1 <<< (18 - 1) : ℕ) : ℤ) : ℚ) = 131072 := by
    have e' : (1 <<< (18 - 1) : ℕ) = 131072 := by decide
    rw [e']
    norm_num
  have h1' : (-2147483648 : ℚ) ≤ (n : ℚ) := by
    have : (-2147483648 : ℤ) ≤ n := by omega
    exact_mod_cast this
  have h2' : (n : ℚ) ≤ 2147483648 := by
    have : n ≤ (2147483648 : ℤ) := by omega
    exact_mod_cast this
  have hx : ¬ |(n : ℚ)| > DBL_MAX := by
    have hb : |(n : ℚ)| ≤ 2147483648 := abs_le.mpr ⟨by linarith, h2'⟩
    have := DBL_MAX_ge
    linarith
  unfold fs_to_bits
  rw [if_pos (by decide)]
  simp only [e, h, round_intCast]
  rw [if_neg hx, if_pos ⟨h1, h2⟩]

/-- Outcome of `set_iq_balance` once both components are encoded. -/
theorem set_iq_balance_of_bits (self : rx_frontend_core_3000_impl) (cor : complex_double)
    (m p : ℕ) (hm : fs_to_bits cor.real 18 = .value m)
    (hp : fs_to_bits cor.imag 18 = .value p) :
    self.set_iq_balance cor =
      .returned { self with
        _iface := self._iface ++
          [(self._rx_fe_mag_corr_reg % UINT32_MOD, m % UINT32_MOD),
           (self._rx_fe_phase_corr_reg % UINT32_MOD, p % UINT32_MOD)] } () := by
  unfold set_iq_balance
  rw [hm]
  simp only
  rw [show fs_to_bits cor.imag 18 = Conversion.value p from hp]
  simp only [poke32, List.append_assoc, List.cons_append, List.nil_append]

theorem fs_to_bits_one : fs_to_bits 1 18 = .value 131072 :=
  fs_to_bits_18_of_int 1 131072 (by norm_num) (by norm_num) (by norm_num)

theorem fs_to_bits_neg_one : fs_to_bits (-1) 18 = .value 4294836224 := by
  rw [fs_to_bits_18_of_int (-1) (-131072) (by norm_num) (by norm_num) (by norm_num)]
  exact congrArg Conversion.value (by decide)

theorem fs_to_bits_below_one : fs_to_bits (1 - 1 / 2 ^ 17) 18 = .value 131071 :=
  fs_to_bits_18_of_int (1 - 1 / 2 ^ 17) 131071 (by norm_num) (by norm_num) (by norm_num)

/-- C8, counterexample: for the correction `1.0 - 1.0i` the magnitude word is `0x20000`
and the phase word is `0xFFFE0000`: the 18-bit field for `+1.0` is `0x20000`, not
`0x1FFFF`; it is the very field written for `-1.0`, and it decodes to `-2^17`, a
negative number. -/
theorem set_iq_balance_one_wraps :
    (make [] ⟨sampling_t.QUADRATURE, false, false, false, 0⟩ 0 4).set_iq_balance ⟨1, -1⟩ =
      .returned { make [] ⟨sampling_t.QUADRATURE, false, false, false, 0⟩ 0 4 with
        _iface := [(0, 131072), (4, 4294836224)] } () ∧
    131072 % 2 ^ 18 ≠ 131071 ∧
    131072 % 2 ^ 18 = 4294836224 % 2 ^ 18 ∧
    signed_of_bits 18 131072 = -131072 := by
  refine ⟨?_, by decide, by decide, by decide⟩
  rw [set_iq_balance_of_bits
    (make [] ⟨sampling_t.QUADRATURE, false, false, false, 0⟩ 0 4) ⟨1, -1⟩ 131072 4294836224
    fs_to_bits_one fs_to_bits_neg_one]
  decide

/-- C8, amended: `set_iq_balance` encodes a component `-1.0` as the minimum negative
18-bit value (`-2^17`, word `0xFFFE0000`, low 18 bits `0x20000`). A component `+1.0` is
not saturated: its word is `2^17 = 0x20000`, whose low 18 bits are those written for
`-1.0` and decode to `-2^17`. The maximum positive field `0x1FFFF` (`2^17 - 1`) is
written for the component `1 - 2^-17`. -/
theorem set_iq_balance_full_scale (self : rx_frontend_core_3000_impl) :
    self.set_iq_balance ⟨-1, 1⟩ =
      .returned { self with
        _iface := self._iface ++
          [(self._rx_fe_mag_corr_reg % UINT32_MOD, 4294836224),
           (self._rx_fe_phase_corr_reg % UINT32_MOD, 131072)] } () ∧
    self.set_iq_balance ⟨1 - 1 / 2 ^ 17, 1 - 1 / 2 ^ 17⟩ =
      .returned { self with
        _iface := self._iface ++
          [(self._rx_fe_mag_corr_reg % UINT32_MOD, 131071),
           (self._rx_fe_phase_corr_reg % UINT32_MOD, 131071)] } () ∧
    4294836224 % 2 ^ 18 = 131072 ∧ signed_of_bits 18 4294836224 = -(2 ^ 17) ∧
    131072 % 2 ^ 18 = 131072 ∧ signed_of_bits 18 131072 = -(2 ^ 17) ∧
    131071 % 2 ^ 18 = 131071 ∧ signed_of_bits 18 131071 = 2 ^ 17 - 1 := by
  refine ⟨?_, ?_, by decide, by decide, by decide, by decide, by decide, by decide⟩
  · rw [set_iq_balance_of_bits self ⟨-1, 1⟩ 4294836224 131072 fs_to_bits_neg_one
      fs_to_bits_one]
    rfl
  · rw [set_iq_balance_of_bits self ⟨1 - 1 / 2 ^ 17, 1 - 1 / 2 ^ 17⟩ 131071 131071
      fs_to_bits_below_one fs_to_bits_below_one]
    rfl

/-! ## Bypass -/

/-- Replaying a run of pokes from any register content either leaves the register at
`addr` as it was, or sets it to a value that does not depend on the earlier content. -/
theorem foldl_poke_cases (P : List (ℕ × ℕ)) (addr : ℕ) :
    (∀ init : Option ℕ,
      P.foldl (fun cur p => if p.1 = addr then some p.2 else cur) init = init) ∨
    (∃ v, ∀ init : Option ℕ,
      P.foldl (fun cur p => if p.1 = addr then some p.2 else cur) init = some v) := by
  induction P with
  | nil => exact Or.inl (fun init => rfl)
  | cons p P ih =>
    rcases ih with ih | ⟨v, ih⟩
    · by_cases hp : p.1 = addr
      · refine Or.inr ⟨p.2, fun init => ?_⟩
        rw [List.foldl_cons, ih, if_pos hp]
      · refine Or.inl (fun init => ?_)
        rw [List.foldl_cons, ih, if_neg hp]
    · exact Or.inr ⟨v, fun init => by rw [List.foldl_cons, ih]⟩

/-- Poking `v` to the register `m` and then repeating a run of pokes that begins with a
poke to `m` restores every register to its content after the first run. -/
theorem reg_value_replay (L W : List (ℕ × ℕ)) (m w v addr : ℕ) :
    reg_value (((L ++ (m, w) :: W) ++ [(m, v)]) ++ (m, w) :: W) addr =
      reg_value (L ++ (m, w) :: W) addr := by
  unfold reg_value
  rw [List.foldl_append, List.foldl_append, List.foldl_append]
  rcases foldl_poke_cases ((m, w) :: W) addr with h | ⟨u, h⟩
  · have hne : ¬ m = addr := by
      intro hma
      have h1 := h none
      rw [List.foldl_cons] at h1
      simp only [hma, if_true] at h1
      rcases foldl_poke_cases W addr with h2 | ⟨u, h2⟩
      · rw [h2] at h1
        exact Option.some_ne_none _ h1
      · rw [h2] at h1
        exact Option.some_ne_none _ h1
    rw [h, h, List.foldl_cons, List.foldl_nil, if_neg hne]
  · rw [h, h]

/-- A returning `set_fe_connection` appends a run of pokes beginning with the mapping
poke, stores the descriptor, and returns alike, with the same run, on every object that
has the same ADC rate and register addresses. -/
theorem set_fe_connection_replay (self s1 : rx_frontend_core_3000_impl) (epsilon : ℚ)
    (fe_conn : fe_connection_t) (h : self.set_fe_connection epsilon fe_conn = .returned s1 ()) :
    ∃ W, s1 = { self with
        _iface := self._iface ++
          (self._rx_fe_mapping_reg % UINT32_MOD, mapping_reg_val fe_conn) :: W
        _fe_conn := fe_conn } ∧
      ∀ t : rx_frontend_core_3000_impl, t._adc_rate = self._adc_rate →
        t._rx_fe_mapping_reg = self._rx_fe_mapping_reg →
        t._rx_fe_het_cordic_phase_reg = self._rx_fe_het_cordic_phase_reg →
        t.set_fe_connection epsilon fe_conn =
          .returned { t with
            _iface := t._iface ++
              (self._rx_fe_mapping_reg % UINT32_MOD, mapping_reg_val fe_conn) :: W
            _fe_conn := fe_conn } () := by
  by_cases h0 : self._adc_rate = 0
  · rw [set_fe_connection_rate_zero self epsilon fe_conn h0] at h
    cases h
  · by_cases hm : fe_conn.get_sampling_mode = sampling_t.HETERODYNE
    · by_cases h4 : quarter_rate_check epsilon self._adc_rate
          (cordic_freq fe_conn.get_if_freq self._adc_rate) = true
      · rw [set_fe_connection_het_ok self epsilon fe_conn h0 hm h4] at h
        injection h with h
        refine ⟨_, h.symm, fun t ht hmap hhet => ?_⟩
        rw [set_fe_connection_het_ok t epsilon fe_conn (ht ▸ h0) hm (ht ▸ h4), ht, hmap, hhet]
      · rw [set_fe_connection_het_fail self epsilon fe_conn h0 hm
          (Bool.eq_false_iff.mpr h4)] at h
        cases h
    · rw [set_fe_connection_not_het self epsilon fe_conn h0 hm] at h
      injection h with h
      refine ⟨[], h.symm, fun t ht hmap _ => ?_⟩
      rw [set_fe_connection_not_het t epsilon fe_conn (ht ▸ h0) hm, hmap]

/-- C9: bypass is fully reversible. Whenever `set_fe_connection(d)` returns, leaving the
object `s1`, then `bypass_all(true)` followed by `bypass_all(false)` both return, and
afterwards the mapping register and the mixer-phase register (indeed every register)
hold the values they held in `s1`; the stored members are those of `s1` as well. This
holds under every tolerance of the quarter-rate comparison. -/
theorem bypass_all_reversible (self s1 : rx_frontend_core_3000_impl) (epsilon : ℚ)
    (fe_conn : fe_connection_t) (h : self.set_fe_connection epsilon fe_conn = .returned s1 ()) :
    ∃ s2 s3, s1.bypass_all epsilon true = .returned s2 () ∧
      s2.bypass_all epsilon false = .returned s3 () ∧
      reg_value s3._iface (s3._rx_fe_mapping_reg % UINT32_MOD) =
        reg_value s1._iface (s1._rx_fe_mapping_reg % UINT32_MOD) ∧
      reg_value s3._iface (s3._rx_fe_het_cordic_phase_reg % UINT32_MOD) =
        reg_value s1._iface (s1._rx_fe_het_cordic_phase_reg % UINT32_MOD) ∧
      (∀ addr, reg_value s3._iface addr = reg_value s1._iface addr) ∧
      s3 = { s1 with _iface := s3._iface } := by
  obtain ⟨W, hs1, hrep⟩ := set_fe_connection_replay self s1 epsilon fe_conn h
  obtain ⟨s2, hs2⟩ : ∃ s2, s2 = s1.poke32 s1._rx_fe_mapping_reg FLAG_DSP_RX_MAPPING_BYPASS_ALL :=
    ⟨_, rfl⟩
  have hb : s1.bypass_all epsilon true = .returned s2 () := by
    rw [hs2]
    simp [bypass_all]
  have hrate : s2._adc_rate = self._adc_rate := by
    rw [hs2, hs1]
    rfl
  have hmap : s2._rx_fe_mapping_reg = self._rx_fe_mapping_reg := by
    rw [hs2, hs1]
    rfl
  have hhet : s2._rx_fe_het_cordic_phase_reg = self._rx_fe_het_cordic_phase_reg := by
    rw [hs2, hs1]
    rfl
  have hconn : s2._fe_conn = fe_conn := by
    rw [hs2, hs1]
    rfl
  have hf := hrep s2 hrate hmap hhet
  have hf' : s2.bypass_all epsilon false = s2.set_fe_connection epsilon fe_conn := by
    rw [bypass_all, if_neg (by decide), hconn]
  have hlog : ∀ addr, reg_value (s2._iface ++
        (self._rx_fe_mapping_reg % UINT32_MOD, mapping_reg_val fe_conn) :: W) addr =
      reg_value s1._iface addr := by
    intro addr
    rw [hs2, hs1]
    exact reg_value_replay self._iface W _ _ _ addr
  refine ⟨s2, _, hb, hf'.trans hf, ?_, ?_, hlog, ?_⟩
  · have e : s1._rx_fe_mapping_reg = s2._rx_fe_mapping_reg := by
      rw [hs2]
      rfl
    rw [e]
    exact hlog _
  · have e : s1._rx_fe_het_cordic_phase_reg = s2._rx_fe_het_cordic_phase_reg := by
      rw [hs2]
      rfl
    rw [e]
    exact hlog _
  · rw [hs2, hs1]
    rfl

/-- Witness for C9: tolerance `2^-52`, a core at base 0 with stride 4 and ADC rate
40 MHz, after the heterodyne descriptor with IF 10 MHz was applied (mapping word 18 at
address 16, mixer-phase value 1 at address 20): after bypassing and un-bypassing the two
registers hold 18 and 1 again. -/
theorem bypass_all_reversible_witness :
    ({ make [] ⟨sampling_t.QUADRATURE, false, false, false, 0⟩ 0 4 with
        _adc_rate := 40000000 } : rx_frontend_core_3000_impl).set_fe_connection (1 / 2 ^ 52)
      ⟨sampling_t.HETERODYNE, false, false, false, 10000000⟩ =
      .returned
        { make [] ⟨sampling_t.QUADRATURE, false, false, false, 0⟩ 0 4 with
          _adc_rate := 40000000
          _iface := [(16, 18), (20, 1)]
          _fe_conn := ⟨sampling_t.HETERODYNE, false, false, false, 10000000⟩ } () ∧
    ∃ s2 s3,
      ({ make [] ⟨sampling_t.QUADRATURE, false, false, false, 0⟩ 0 4 with
          _adc_rate := 40000000
          _iface := [(16, 18), (20, 1)]
          _fe_conn := ⟨sampling_t.HETERODYNE, false, false, false, 10000000⟩ } :
        rx_frontend_core_3000_impl).bypass_all (1 / 2 ^ 52) true = .returned s2 () ∧
      s2.bypass_all (1 / 2 ^ 52) false = .returned s3 () ∧
      reg_value s3._iface 16 = some 18 ∧ reg_value s3._iface 20 = some 1 := by
  have h0 := set_fe_connection_quarter_rate_example (1 / 2 ^ 52) (by norm_num)
  obtain ⟨s2, s3, h1, h2, _, _, hall, _⟩ := bypass_all_reversible _ _ _ _ h0
  refine ⟨h0, s2, s3, h1, h2, ?_, ?_⟩
  · rw [hall 16]
    decide
  · rw [hall 20]
    decide

/-! ## Automatic DC offset -/

/-- Bits of the words `set_dc_offset_auto` pokes for a cached offset `n`. -/
theorem auto_word (n : ℤ) :
    ((0 : ℕ) ||| twos_complement 30 n).testBit 31 = false ∧
    (OFFSET_FIXED ||| twos_complement 30 n).testBit 31 = true ∧
    (OFFSET_FIXED ||| twos_complement 30 n) % 2 ^ 30 = twos_complement 30 n := by
  have hl := twos_complement_lt 30 n
  have h0 := flags_or_low 0 _ (by decide) hl
  have h1 := flags_or_low OFFSET_FIXED _ (by decide) hl
  refine ⟨?_, ?_, h1.1⟩
  · rw [h0.2.2]
    decide
  · rw [h1.2.2]
    decide

/-- A returning `set_dc_offset` has rounded both components and poked the two words. -/
theorem set_dc_offset_returned (self s1 : rx_frontend_core_3000_impl) (off y : complex_double)
    (h : self.set_dc_offset off = .returned s1 y) :
    ∃ i q, s1 = { self with
        _i_dc_off := i
        _q_dc_off := q
        _iface := self._iface ++
          [(self._rx_fe_offset_i_reg % UINT32_MOD,
              (OFFSET_SET ||| OFFSET_FIXED) ||| twos_complement 30 i),
           (self._rx_fe_offset_q_reg % UINT32_MOD,
              (OFFSET_SET ||| OFFSET_FIXED) ||| twos_complement 30 q)] } := by
  cases hi : iround (off.real * scaler) with
  | none =>
    simp [set_dc_offset, hi] at h
  | some i =>
    cases hq : iround (off.imag * scaler) with
    | none =>
      simp [set_dc_offset, hi, hq] at h
    | some q =>
      rw [set_dc_offset_of_iround self off i q hi hq] at h
      injection h with h _
      exact ⟨i, q, h.symm⟩

/-- C10: whenever `set_dc_offset(x)` returns, leaving the object `s1`, the calls
`set_dc_offset_auto(true)` and then `set_dc_offset_auto(false)` return; the words poked
to the I and Q offset registers by the first have bit 31 (fixed) = 0, the words poked by
the second have bit 31 = 1 and the same low 30 bits that `set_dc_offset(x)` poked to
that register; and `set_dc_offset_auto` never changes the cached I/Q values. -/
theorem set_dc_offset_auto_reapplies (self s1 : rx_frontend_core_3000_impl)
    (off y : complex_double) (h : self.set_dc_offset off = .returned s1 y) :
    ∃ w1I w1Q w2I w2Q w3I w3Q s2 s3,
      s1._iface = self._iface ++
        [(self._rx_fe_offset_i_reg % UINT32_MOD, w1I),
         (self._rx_fe_offset_q_reg % UINT32_MOD, w1Q)] ∧
      s1.set_dc_offset_auto true = .returned s2 () ∧
      s2._iface = s1._iface ++
        [(self._rx_fe_offset_i_reg % UINT32_MOD, w2I),
         (self._rx_fe_offset_q_reg % UINT32_MOD, w2Q)] ∧
      s2.set_dc_offset_auto false = .returned s3 () ∧
      s3._iface = s2._iface ++
        [(self._rx_fe_offset_i_reg % UINT32_MOD, w3I),
         (self._rx_fe_offset_q_reg % UINT32_MOD, w3Q)] ∧
      w2I.testBit 31 = false ∧ w2Q.testBit 31 = false ∧
      w3I.testBit 31 = true ∧ w3Q.testBit 31 = true ∧
      w3I % 2 ^ 30 = w1I % 2 ^ 30 ∧ w3Q % 2 ^ 30 = w1Q % 2 ^ 30 ∧
      (s2._i_dc_off = s1._i_dc_off ∧ s2._q_dc_off = s1._q_dc_off) ∧
      (s3._i_dc_off = s1._i_dc_off ∧ s3._q_dc_off = s1._q_dc_off) ∧
      (∀ (s : rx_frontend_core_3000_impl) (enb : Bool), ∃ s',
        s.set_dc_offset_auto enb = .returned s' () ∧
        s'._i_dc_off = s._i_dc_off ∧ s'._q_dc_off = s._q_dc_off) := by
  obtain ⟨i, q, hs1⟩ := set_dc_offset_returned self s1 off y h
  have hI := auto_word i
  have hQ := auto_word q
  have h2 := set_dc_offset_auto_eq s1 true
  have h3 := fun s2 : rx_frontend_core_3000_impl => set_dc_offset_auto_eq s2 false
  subst hs1
  refine ⟨(OFFSET_SET ||| OFFSET_FIXED) ||| twos_complement 30 i,
    (OFFSET_SET ||| OFFSET_FIXED) ||| twos_complement 30 q,
    0 ||| twos_complement 30 i, 0 ||| twos_complement 30 q,
    OFFSET_FIXED ||| twos_complement 30 i, OFFSET_FIXED ||| twos_complement 30 q,
    _, _, rfl, h2, rfl, h3 _, rfl, hI.1, hQ.1, hI.2.1, hQ.2.1, ?_, ?_, ⟨rfl, rfl⟩,
    ⟨rfl, rfl⟩, fun s enb => ⟨_, set_dc_offset_auto_eq s enb, rfl, rfl⟩⟩
  · exact hI.2.2.trans (set_fixed_word i).2.2.2.symm
  · exact hQ.2.2.trans (set_fixed_word q).2.2.2.symm

/-- Witness for C10: the offset `1/2 - i/4` on a core at base 0 with stride 4; the final
words carry the latched fields `2^28` and `2^30 - 2^27`, not zero. -/
theorem set_dc_offset_auto_reapplies_witness :
    ∃ s1 y w1I w1Q w2I w2Q w3I w3Q s2 s3,
      (make [] ⟨sampling_t.QUADRATURE, false, false, false, 0⟩ 0 4).set_dc_offset
        ⟨1 / 2, -1 / 4⟩ = .returned s1 y ∧
      s1._iface = [(8, w1I), (12, w1Q)] ∧
      s1.set_dc_offset_auto true = .returned s2 () ∧
      s2._iface = s1._iface ++ [(8, w2I), (12, w2Q)] ∧
      s2.set_dc_offset_auto false = .returned s3 () ∧
      s3._iface = s2._iface ++ [(8, w3I), (12, w3Q)] ∧
      w2I.testBit 31 = false ∧ w2Q.testBit 31 = false ∧
      w3I.testBit 31 = true ∧ w3Q.testBit 31 = true ∧
      w3I % 2 ^ 30 = w1I % 2 ^ 30 ∧ w3Q % 2 ^ 30 = w1Q % 2 ^ 30 := by
  have h0 := set_dc_offset_in_range
    (make [] ⟨sampling_t.QUADRATURE, false, false, false, 0⟩ 0 4) ⟨1 / 2, -1 / 4⟩
    (by norm_num) (by norm_num) (by norm_num) (by norm_num)
  obtain ⟨w1I, w1Q, w2I, w2Q, w3I, w3Q, s2, s3, a1, a2, a3, a4, a5, a6, a7, a8, a9, a10,
    a11, _⟩ := set_dc_offset_auto_reapplies _ _ _ _ h0
  exact ⟨_, _, w1I, w1Q, w2I, w2Q, w3I, w3Q, s2, s3, h0, a1, a2, a3, a4, a5, a6, a7, a8, a9,
    a10, a11⟩

/-! ## Folding the intermediate frequency -/

theorem rat_mod_range (x r : ℚ) (hr : 0 < r) : 0 ≤ rat_mod x r ∧ rat_mod x r < r := by
  unfold rat_mod
  have h1 := mul_le_mul_of_nonneg_right (Int.floor_le (x / r)) hr.le
  have h2 := mul_lt_mul_of_pos_right (Int.lt_floor_add_one (x / r)) hr
  rw [div_mul_cancel₀ _ hr.ne'] at h1 h2
  constructor <;> linarith

/-- Step 2 of the source: for a positive rate, `|fmod f r|` is `|f| mod r`. -/
theorem abs_fmod (f r : ℚ) (hr : 0 < r) : |fmod f r| = rat_mod |f| r := by
  by_cases hf : 0 ≤ f
  · have hq : 0 ≤ f / r := div_nonneg hf hr.le
    have hm := (rat_mod_range f r hr).1
    unfold rat_mod at hm
    unfold fmod rat_mod trunc
    rw [if_pos hq, abs_of_nonneg hf, abs_of_nonneg hm]
  · have hf' : f < 0 := not_le.mp hf
    have hq : f / r < 0 := div_neg_of_neg_of_pos hf' hr
    have hc : (⌈f / r⌉ : ℤ) = -⌊(-f) / r⌋ := by
      rw [neg_div, Int.floor_neg, neg_neg]
    have hm := (rat_mod_range (-f) r hr).1
    unfold rat_mod at hm
    unfold fmod rat_mod trunc
    rw [if_neg (not_le.mpr hq), abs_of_neg hf', hc]
    push_cast
    rw [abs_of_nonpos (by linarith)]
    ring

/-- The value `cordic_freq` in terms of `m = |f| mod r`. -/
theorem cordic_freq_cases (f r : ℚ) (hr : 0 < r) :
    cordic_freq f r =
      if f = 0 then 0
      else if 0 < f then (if rat_mod |f| r > r / 2 then r - rat_mod |f| r else -rat_mod |f| r)
      else (if rat_mod |f| r > r / 2 then rat_mod |f| r - r else rat_mod |f| r) := by
  unfold cordic_freq aliased_freq sign
  simp only [abs_fmod f r hr]
  by_cases h0 : f = 0
  · simp [h0]
  · by_cases hp : 0 < f
    · have hn : ¬ f < 0 := not_lt.mpr hp.le
      simp only [h0, hp, hn, if_false, if_true]
      split_ifs <;> push_cast <;> ring
    · have hn : f < 0 := lt_of_le_of_ne (not_lt.mp hp) h0
      simp only [h0, hp, hn, if_false, if_true]
      split_ifs <;> push_cast <;> ring

/-- Range of the folding steps for a positive rate: step 2 gives a value in `[0, r)`,
step 3 a value in `(-r/2, r/2]`. -/
theorem aliased_freq_range (f r : ℚ) (hr : 0 < r) :
    (0 ≤ |fmod f r| ∧ |fmod f r| < r) ∧
    (-(r / 2) < aliased_freq f r ∧ aliased_freq f r ≤ r / 2) := by
  have hm := rat_mod_range |f| r hr
  unfold aliased_freq
  simp only [abs_fmod f r hr]
  refine ⟨hm, ?_⟩
  split_ifs with h
  · constructor <;> linarith [hm.1, hm.2]
  · constructor <;> linarith [hm.1, hm.2]

/-- C13: for every ADC rate `r > 0` and every IF `f`, the cancellation frequency
`c = cordic_freq f r` of the heterodyne branch satisfies `|c| ≤ r / 2`, and `c + f` is an
integer multiple of `r`. -/
theorem cordic_freq_opposite (f r : ℚ) (hr : 0 < r) :
    |cordic_freq f r| ≤ r / 2 ∧ ∃ n : ℤ, cordic_freq f r + f = (n : ℚ) * r := by
  have hm := rat_mod_range |f| r hr
  have hdef : rat_mod |f| r = |f| - (⌊|f| / r⌋ : ℚ) * r := rfl
  rw [cordic_freq_cases f r hr]
  by_cases h0 : f = 0
  · rw [if_pos h0, h0]
    refine ⟨by rw [abs_zero]; linarith, 0, by simp⟩
  · rw [if_neg h0]
    by_cases hp : 0 < f
    · rw [if_pos hp]
      have ha : |f| = f := abs_of_pos hp
      by_cases hh : rat_mod |f| r > r / 2
      · rw [if_pos hh]
        refine ⟨by rw [abs_le]; constructor <;> linarith [hm.1, hm.2], ⌊|f| / r⌋ + 1, ?_⟩
        rw [hdef, ha]
        push_cast
        ring
      · rw [if_neg hh]
        refine ⟨by rw [abs_le]; constructor <;> linarith [hm.1, hm.2], ⌊|f| / r⌋, ?_⟩
        rw [hdef, ha]
        ring
    · rw [if_neg hp]
      have hn : f < 0 := lt_of_le_of_ne (not_lt.mp hp) h0
      have ha : |f| = -f := abs_of_neg hn
      by_cases hh : rat_mod |f| r > r / 2
      · rw [if_pos hh]
        refine ⟨by rw [abs_le]; constructor <;> linarith [hm.1, hm.2], -⌊|f| / r⌋ - 1, ?_⟩
        rw [hdef, ha]
        push_cast
        ring
      · rw [if_neg hh]
        refine ⟨by rw [abs_le]; constructor <;> linarith [hm.1, hm.2], -⌊|f| / r⌋, ?_⟩
        rw [hdef, ha]
        push_cast
        ring

/-- Witness for C13: ADC rate 40 MHz and IF 30 MHz. -/
theorem cordic_freq_opposite_witness :
    (0 : ℚ) < 40000000 ∧
    |cordic_freq 30000000 40000000| ≤ 40000000 / 2 ∧
    ∃ n : ℤ, cordic_freq 30000000 40000000 + 30000000 = (n : ℚ) * 40000000 :=
  ⟨by norm_num, cordic_freq_opposite 30000000 40000000 (by norm_num)⟩

/-- C14, the code at the boundary: with ADC rate 40 MHz and IF 20 MHz step 2 gives
20 MHz, inside `[0, r)`, and step 3 leaves it at 20 MHz = `r / 2`, which is not below
`r / 2`: the comparison of line 131 is strict. The call then throws on the quarter-rate
assertion, after the mapping poke, under every tolerance below one half (the ratio of
the ADC rate to the cancellation frequency is 2). -/
theorem aliased_freq_half_rate :
    |fmod 20000000 40000000| = 20000000 ∧
    aliased_freq 20000000 40000000 = 40000000 / 2 ∧
    ¬ (aliased_freq 20000000 40000000 < 40000000 / 2) ∧
    ∀ epsilon : ℚ, epsilon < 1 / 2 →
      ({ make [] ⟨sampling_t.QUADRATURE, false, false, false, 0⟩ 0 4 with
          _adc_rate := 40000000 } : rx_frontend_core_3000_impl).set_fe_connection epsilon
        ⟨sampling_t.HETERODYNE, false, false, false, 20000000⟩ =
      .thrown
        { make [] ⟨sampling_t.QUADRATURE, false, false, false, 0⟩ 0 4 with
          _adc_rate := 40000000
          _iface := [(16, 18)] } := by
  have hf : |fmod 20000000 40000000| = 20000000 := by
    norm_num [fmod, trunc, abs_of_pos]
  have ha : aliased_freq 20000000 40000000 = 40000000 / 2 := by
    unfold aliased_freq
    simp only [hf]
    norm_num
  have hc : cordic_freq 20000000 40000000 = -20000000 := by
    unfold cordic_freq
    rw [ha]
    norm_num [sign]
  refine ⟨hf, ha, by rw [ha]; norm_num, fun epsilon heps => ?_⟩
  have hq : quarter_rate_check epsilon 40000000 (cordic_freq 20000000 40000000) = false := by
    rw [Bool.eq_false_iff, Ne, quarter_rate_check_iff, hc,
      show (40000000 : ℚ) / -20000000 = -2 by norm_num, abs_neg, abs_two,
      show (4 : ℚ) - 2 = 2 by norm_num, abs_two]
    rintro ⟨_, h | h⟩ <;> linarith
  have h := set_fe_connection_het_fail
    ({ make [] ⟨sampling_t.QUADRATURE, false, false, false, 0⟩ 0 4 with
        _adc_rate := 40000000 } : rx_frontend_core_3000_impl) epsilon
    ⟨sampling_t.HETERODYNE, false, false, false, 20000000⟩ (by norm_num) rfl hq
  rw [h]
  rfl

/-! ## Closed form of the accepted intermediate frequencies -/

theorem round_neg (v : ℚ) : round (-v) = -round v := by
  unfold round
  rcases lt_trichotomy v 0 with h | h | h
  · have h' : ¬ -v < 0 := by linarith
    rw [if_neg h', if_pos h]
    have e : -v + 1 / 2 = -(v - 1 / 2) := by ring
    rw [e, Int.floor_neg]
  · rw [h]
    norm_num
  · have h' : -v < 0 := by linarith
    have h'' : ¬ v < 0 := by linarith
    rw [if_pos h', if_neg h'']
    have e : -v - 1 / 2 = -(v + 1 / 2) := by ring
    rw [e, Int.ceil_neg]

/-- Halfway cases go away from zero. -/
theorem round_half (n : ℕ) :
    round ((n : ℚ) + 1 / 2) = (n : ℤ) + 1 ∧ round (-((n : ℚ) + 1 / 2)) = -((n : ℤ) + 1) := by
  have h1 : round ((n : ℚ) + 1 / 2) = (n : ℤ) + 1 := by
    have hn : (0 : ℚ) ≤ (n : ℚ) := Nat.cast_nonneg n
    unfold round
    rw [if_neg (by linarith)]
    have e : (n : ℚ) + 1 / 2 + 1 / 2 = (((n : ℤ) + 1 : ℤ) : ℚ) := by
      push_cast
      ring
    rw [e, Int.floor_intCast]
  exact ⟨h1, by rw [round_neg, h1]⟩

/-- C18: DC-offset quantization rounds to nearest with ties away from zero and is odd.
For every offset `x` with components in `[-1, 1]`, `set_dc_offset(x)` returns some `y`
and `set_dc_offset(-x)`, on any object, returns `-y`; a component `2^-30` returns `2^-29`
and `-2^-30` returns `-2^-29`. -/
theorem set_dc_offset_odd (self t : rx_frontend_core_3000_impl) (off : complex_double)
    (hre1 : -1 ≤ off.real) (hre2 : off.real ≤ 1) (him1 : -1 ≤ off.imag)
    (him2 : off.imag ≤ 1) :
    (∃ s1 s2 y, self.set_dc_offset off = .returned s1 y ∧
      t.set_dc_offset ⟨-off.real, -off.imag⟩ = .returned s2 ⟨-y.real, -y.imag⟩) ∧
    (∃ s3, self.set_dc_offset ⟨1 / 2 ^ 30, -(1 / 2 ^ 30)⟩ =
      .returned s3 ⟨1 / 2 ^ 29, -(1 / 2 ^ 29)⟩) ∧
    (∀ v : ℚ, |((round v : ℤ) : ℚ) - v| ≤ 1 / 2) ∧
    (∀ n : ℕ, round ((n : ℚ) + 1 / 2) = (n : ℤ) + 1 ∧
      round (-((n : ℚ) + 1 / 2)) = -((n : ℤ) + 1)) := by
  refine ⟨?_, ?_, round_sub_le, round_half⟩
  · have h1 := set_dc_offset_in_range self off hre1 hre2 him1 him2
    have h2 := set_dc_offset_in_range t ⟨-off.real, -off.imag⟩
      (by show -1 ≤ -off.real; linarith) (by show -off.real ≤ 1; linarith)
      (by show -1 ≤ -off.imag; linarith) (by show -off.imag ≤ 1; linarith)
    simp only [neg_mul, round_neg, Int.cast_neg, neg_div] at h2
    exact ⟨_, _, _, h1, h2⟩
  · have h3 := set_dc_offset_in_range self ⟨1 / 2 ^ 30, -(1 / 2 ^ 30)⟩ (by norm_num)
      (by norm_num) (by norm_num) (by norm_num)
    have e : (1 / 2 ^ 30 : ℚ) * scaler = ((0 : ℕ) : ℚ) + 1 / 2 := by
      rw [scaler_eq]
      norm_num
    have hs : scaler = 2 ^ 29 := two_pow_29_cast.symm
    simp only [neg_mul, round_neg, e, (round_half 0).1] at h3
    rw [hs] at h3
    norm_num at h3
    exact ⟨_, h3⟩

/-- Witness for C18: the offset `1/3 - 2i/3`. -/
theorem set_dc_offset_odd_witness :
    ∃ s1 s2 y,
      (make [] ⟨sampling_t.QUADRATURE, false, false, false, 0⟩ 0 4).set_dc_offset
        ⟨1 / 3, -2 / 3⟩ = .returned s1 y ∧
      (make [] ⟨sampling_t.QUADRATURE, false, false, false, 0⟩ 0 4).set_dc_offset
        ⟨-(1 / 3), -(-2 / 3)⟩ = .returned s2 ⟨-y.real, -y.imag⟩ :=
  (set_dc_offset_odd
    (make [] ⟨sampling_t.QUADRATURE, false, false, false, 0⟩ 0 4)
    (make [] ⟨sampling_t.QUADRATURE, false, false, false, 0⟩ 0 4) ⟨1 / 3, -2 / 3⟩
    (by norm_num) (by norm_num) (by norm_num) (by norm_num)).1

/-! ## IQ balance on `[-1, 1)` -/

/-- Rounded scaled component of a correction in `[-1, 1]`: between `-2^17` and `2^17`. -/
theorem round_fs_bounds (v : ℚ) (h1 : -1 ≤ v) (h2 : v ≤ 1) :
    -(2 ^ 17) ≤ round (v * 2 ^ 17) ∧ round (v * 2 ^ 17) ≤ 2 ^ 17 := by
  have h := abs_le.mp (round_sub_le (v * 2 ^ 17))
  have e : (2 : ℚ) ^ 17 = 131072 := by norm_num
  rw [e] at h ⊢
  constructor
  · have : (-(2 ^ 17 : ℤ) : ℚ) - 1 < ((round (v * 131072) : ℤ) : ℚ) := by
      push_cast
      linarith [h.1]
    have h3 : -(2 ^ 17 : ℤ) - 1 < round (v * 131072) := by exact_mod_cast this
    omega
  · have : ((round (v * 131072) : ℤ) : ℚ) < ((2 ^ 17 : ℤ) : ℚ) + 1 := by
      push_cast
      linarith [h.2]
    have h3 : round (v * 131072) < (2 ^ 17 : ℤ) + 1 := by exact_mod_cast this
    omega

/-- Value of `fs_to_bits v 18` for a component in `[-1, 1]`. -/
theorem fs_to_bits_18_in_range (v : ℚ) (h1 : -1 ≤ v) (h2 : v ≤ 1) :
    fs_to_bits v 18 = .value (round (v * 2 ^ 17) % 2 ^ 32).toNat := by
  have b := round_fs_bounds v h1 h2
  have e : (((1 <<< (18 - 1) : ℕ) : ℤ) : ℚ) = 2 ^ 17 := by
    have e' : (1 <<< (18 - 1) : ℕ) = 131072 := by decide
    rw [e']
    norm_num
  have hx : ¬ |v * 2 ^ 17| > DBL_MAX := by
    have e17 : (2 : ℚ) ^ 17 = 131072 := by norm_num
    have hb : |v * 2 ^ 17| ≤ 2147483648 := by
      rw [e17, abs_le]
      constructor <;> linarith
    have := DBL_MAX_ge
    linarith
  unfold fs_to_bits
  rw [if_pos (by decide)]
  simp only [e]
  rw [if_neg hx, if_pos (by constructor <;> omega)]

/-- The 18-bit field of the word `fs_to_bits` produces for a rounded value `n`. -/
theorem fs_word_field (n : ℤ) (h1 : -(2 ^ 17) ≤ n) (h2 : n ≤ 2 ^ 17) :
    (n % 2 ^ 32).toNat < 2 ^ 32 ∧
    (n % 2 ^ 32).toNat % UINT32_MOD = (n % 2 ^ 32).toNat ∧
    (n % 2 ^ 32).toNat % 2 ^ 18 = twos_complement 18 n ∧
    (signed_of_bits 18 (n % 2 ^ 32).toNat = n ↔ n < 2 ^ 17) := by
  unfold twos_complement signed_of_bits UINT32_MOD
  norm_num
  refine ⟨by omega, by omega, by omega, ?_⟩
  split_ifs <;> omega

theorem round_fs_lt_iff (v : ℚ) : round (v * 2 ^ 17) < 2 ^ 17 ↔ v < 1 - 1 / 2 ^ 18 := by
  have h := round_lt_iff (v * 2 ^ 17) (2 ^ 17) (by norm_num)
  rw [h]
  constructor <;> intro h' <;> norm_num at h' ⊢ <;> linarith

/-- C12, counterexample: for the correction `(1 - 2^-18) + 0i`, whose components lie in
`[-1, 1)`, the nearest integer to `v * 2^17 = 131071.5` is `131072`; the magnitude word
poked is `0x20000`, and its low 18 bits read as two's complement give `-131072`. -/
theorem set_iq_balance_near_one_wraps :
    (make [] ⟨sampling_t.QUADRATURE, false, false, false, 0⟩ 0 4).set_iq_balance
        ⟨1 - 1 / 2 ^ 18, 0⟩ =
      .returned { make [] ⟨sampling_t.QUADRATURE, false, false, false, 0⟩ 0 4 with
        _iface := [(0, 131072), (4, 0)] } () ∧
    round ((1 - 1 / 2 ^ 18 : ℚ) * 2 ^ 17) = 131072 ∧
    signed_of_bits 18 131072 = -131072 ∧
    (-1 : ℚ) ≤ 1 - 1 / 2 ^ 18 ∧ (1 - 1 / 2 ^ 18 : ℚ) < 1 := by
  have hr : round ((1 - 1 / 2 ^ 18 : ℚ) * 2 ^ 17) = 131072 := by
    have e : (1 - 1 / 2 ^ 18 : ℚ) * 2 ^ 17 = ((131071 : ℕ) : ℚ) + 1 / 2 := by norm_num
    rw [e, (round_half 131071).1]
    norm_num
  have hz : round ((0 : ℚ) * 2 ^ 17) = 0 := by
    have e : (0 : ℚ) * 2 ^ 17 = ((0 : ℤ) : ℚ) := by norm_num
    rw [e, round_intCast]
  have hm : fs_to_bits (1 - 1 / 2 ^ 18) 18 = .value 131072 := by
    rw [fs_to_bits_18_in_range _ (by norm_num) (by norm_num), hr]
    exact congrArg Conversion.value (by decide)
  have hp : fs_to_bits 0 18 = .value 0 := by
    rw [fs_to_bits_18_in_range _ (by norm_num) (by norm_num), hz]
    exact congrArg Conversion.value (by decide)
  refine ⟨?_, hr, by decide, by norm_num, by norm_num⟩
  rw [set_iq_balance_of_bits
    (make [] ⟨sampling_t.QUADRATURE, false, false, false, 0⟩ 0 4) ⟨1 - 1 / 2 ^ 18, 0⟩
    131072 0 hm hp]
  decide

/-- C12, amended: for every correction with real and imaginary parts `v` in `[-1, 1)`,
`set_iq_balance` returns after poking the magnitude-correction register (from the real
part) and then the phase-correction register (from the imaginary part) with a word
whose low 18 bits are `round(v * 2^17)` reduced modulo `2^18`, where `round(v * 2^17)` is
within `1/2` of `v * 2^17`; these bits decode, as an 18-bit two's-complement field, to
that integer exactly when `v < 1 - 2^-18`. Nothing but the bus changes. -/
theorem set_iq_balance_words (self : rx_frontend_core_3000_impl) (cor : complex_double)
    (hre1 : -1 ≤ cor.real) (hre2 : cor.real < 1) (him1 : -1 ≤ cor.imag)
    (him2 : cor.imag < 1) :
    ∃ m p, self.set_iq_balance cor =
        .returned { self with
          _iface := self._iface ++
            [(self._rx_fe_mag_corr_reg % UINT32_MOD, m),
             (self._rx_fe_phase_corr_reg % UINT32_MOD, p)] } () ∧
      (m < 2 ^ 32 ∧ m % 2 ^ 18 = twos_complement 18 (round (cor.real * 2 ^ 17)) ∧
        |((round (cor.real * 2 ^ 17) : ℤ) : ℚ) - cor.real * 2 ^ 17| ≤ 1 / 2 ∧
        (signed_of_bits 18 m = round (cor.real * 2 ^ 17) ↔ cor.real < 1 - 1 / 2 ^ 18)) ∧
      (p < 2 ^ 32 ∧ p % 2 ^ 18 = twos_complement 18 (round (cor.imag * 2 ^ 17)) ∧
        |((round (cor.imag * 2 ^ 17) : ℤ) : ℚ) - cor.imag * 2 ^ 17| ≤ 1 / 2 ∧
        (signed_of_bits 18 p = round (cor.imag * 2 ^ 17) ↔ cor.imag < 1 - 1 / 2 ^ 18)) := by
  have bm := round_fs_bounds cor.real hre1 hre2.le
  have bp := round_fs_bounds cor.imag him1 him2.le
  have wm := fs_word_field _ bm.1 bm.2
  have wp := fs_word_field _ bp.1 bp.2
  have h := set_iq_balance_of_bits self cor _ _
    (fs_to_bits_18_in_range cor.real hre1 hre2.le)
    (fs_to_bits_18_in_range cor.imag him1 him2.le)
  rw [wm.2.1, wp.2.1] at h
  exact ⟨_, _, h,
    ⟨wm.1, wm.2.2.1, round_sub_le _, wm.2.2.2.trans (round_fs_lt_iff _)⟩,
    ⟨wp.1, wp.2.2.1, round_sub_le _, wp.2.2.2.trans (round_fs_lt_iff _)⟩⟩

/-- Witness for C12: the correction `1/2 - i/4`; the words are `2^16` and `-2^15`
modulo `2^32`, and both fields decode to the rounded values. -/
theorem set_iq_balance_words_witness :
    ∃ m p,
      (make [] ⟨sampling_t.QUADRATURE, false, false, false, 0⟩ 0 4).set_iq_balance
        ⟨1 / 2, -1 / 4⟩ =
        .returned { make [] ⟨sampling_t.QUADRATURE, false, false, false, 0⟩ 0 4 with
          _iface := [(0, m), (4, p)] } () ∧
      signed_of_bits 18 m = round ((1 / 2 : ℚ) * 2 ^ 17) ∧
      signed_of_bits 18 p = round ((-1 / 4 : ℚ) * 2 ^ 17) := by
  obtain ⟨m, p, h, hm, hp⟩ := set_iq_balance_words
    (make [] ⟨sampling_t.QUADRATURE, false, false, false, 0⟩ 0 4) ⟨1 / 2, -1 / 4⟩
    (by norm_num) (by norm_num) (by norm_num) (by norm_num)
  exact ⟨m, p, h, hm.2.2.2.mpr (by norm_num), hp.2.2.2.mpr (by norm_num)⟩

/-! ## Frame of `bypass_all(true)` -/

theorem reg_value_append_one (L : List (ℕ × ℕ)) (a v addr : ℕ) :
    reg_value (L ++ [(a, v)]) addr = if a = addr then some v else reg_value L addr := by
  unfold reg_value
  rw [List.foldl_append]
  rfl

/-- The bus address of a register member laid out by the constructor. -/
theorem reg_mod_bus (base reg_offset k : ℕ) :
    ((base + reg_offset * k) % SIZE_MOD) % UINT32_MOD = bus_address base reg_offset k := by
  unfold bus_address SIZE_MOD UINT32_MOD
  exact Nat.mod_mod_of_dvd _ (by decide)

/-- A register block that fits the 32-bit address space is addressed without wrap. -/
theorem bus_address_fits (base reg_offset k : ℕ) (hfit : base + reg_offset * 5 < UINT32_MOD)
    (hk : k ≤ 5) : bus_address base reg_offset k = base + reg_offset * k := by
  have h : reg_offset * k ≤ reg_offset * 5 := Nat.mul_le_mul_left _ hk
  unfold bus_address
  exact Nat.mod_eq_of_lt (by omega)

/-- C15: `bypass_all(true)` returns on every object, whatever its ADC rate; it issues
exactly one poke, of the value `0x80` (bit 7 alone) to the mapping register; it leaves the
stored descriptor, the ADC rate and the cached DC offsets as they were, and every
register at another address keeps its content; on a core laid out with a positive
stride inside the 32-bit address space these are the registers of index 0, 1, 2, 3
and 5 (IQ balance, DC offset, mixer phase). The tolerance of the quarter-rate
comparison plays no part. -/
theorem bypass_all_true_frame (self : rx_frontend_core_3000_impl) (epsilon : ℚ) :
    self.bypass_all epsilon true =
      .returned { self with
        _iface := self._iface ++ [(self._rx_fe_mapping_reg % UINT32_MOD, 128)] } () ∧
    (∀ i, Nat.testBit 128 i = true ↔ i = 7) ∧
    (∃ s', self.bypass_all epsilon true = .returned s' () ∧
      s'._iface = self._iface ++ [(self._rx_fe_mapping_reg % UINT32_MOD, 128)] ∧
      s'._fe_conn = self._fe_conn ∧ s'._adc_rate = self._adc_rate ∧
      s'._i_dc_off = self._i_dc_off ∧ s'._q_dc_off = self._q_dc_off ∧
      reg_value s'._iface (self._rx_fe_mapping_reg % UINT32_MOD) = some 128 ∧
      (∀ addr, addr ≠ self._rx_fe_mapping_reg % UINT32_MOD →
        reg_value s'._iface addr = reg_value self._iface addr)) ∧
    (∀ iface fe_conn_IQ base reg_offset k, 0 < reg_offset →
      base + reg_offset * 5 < UINT32_MOD → k ≤ 5 → k ≠ 4 →
      ∃ s', (make iface fe_conn_IQ base reg_offset).bypass_all epsilon true = .returned s' () ∧
        reg_value s'._iface (bus_address base reg_offset k) =
          reg_value iface (bus_address base reg_offset k)) ∧
    (make [] ⟨sampling_t.QUADRATURE, false, false, false, 0⟩ 0 4).bypass_all epsilon true =
      .returned { make [] ⟨sampling_t.QUADRATURE, false, false, false, 0⟩ 0 4 with
        _iface := [(16, 128)] } () := by
  have hall : ∀ t : rx_frontend_core_3000_impl, t.bypass_all epsilon true =
      .returned { t with
        _iface := t._iface ++ [(t._rx_fe_mapping_reg % UINT32_MOD, 128)] } () := by
    intro t
    have e : FLAG_DSP_RX_MAPPING_BYPASS_ALL % UINT32_MOD = 128 := by decide
    simp [bypass_all, poke32, e]
  have h : self.bypass_all epsilon true =
      .returned { self with
        _iface := self._iface ++ [(self._rx_fe_mapping_reg % UINT32_MOD, 128)] } () := by
    have e : FLAG_DSP_RX_MAPPING_BYPASS_ALL % UINT32_MOD = 128 := by decide
    simp [bypass_all, poke32, e]
  refine ⟨h, ?_, ⟨_, h, rfl, rfl, rfl, rfl, rfl, ?_, ?_⟩, ?_, (hall _).trans (by decide)⟩
  · intro i
    have e : (128 : ℕ) = 2 ^ 7 := by norm_num
    rw [e, Nat.testBit_two_pow]
    simp [eq_comm]
  · rw [reg_value_append_one, if_pos rfl]
  · intro addr ha
    rw [reg_value_append_one, if_neg (fun h' => ha h'.symm)]
  · intro iface fe_conn_IQ base reg_offset k hpos hfit hk hk4
    refine ⟨_, hall _, ?_⟩
    have e4 : (make iface fe_conn_IQ base reg_offset)._rx_fe_mapping_reg % UINT32_MOD =
        base + reg_offset * 4 := by
      rw [← bus_address_fits base reg_offset 4 hfit (by decide)]
      exact reg_mod_bus base reg_offset 4
    have ek := bus_address_fits base reg_offset k hfit hk
    have hne : ¬ base + reg_offset * 4 = base + reg_offset * k := by
      intro h'
      have h'' : reg_offset * 4 = reg_offset * k := Nat.add_left_cancel h'
      exact hk4 (Nat.eq_of_mul_eq_mul_left hpos h'').symm
    show reg_value ((make iface fe_conn_IQ base reg_offset)._iface ++ _) _ = _
    rw [reg_value_append_one, e4, ek, if_neg hne]
    rfl

/-! ## Outcomes of the calls and sequences of calls -/

/-- The two ways `set_fe_connection` can end. -/
theorem set_fe_connection_shape (self : rx_frontend_core_3000_impl) (epsilon : ℚ)
    (fe_conn : fe_connection_t) :
    (∃ W, self.set_fe_connection epsilon fe_conn =
        .returned { self with
          _iface := self._iface ++
            (self._rx_fe_mapping_reg % UINT32_MOD, mapping_reg_val fe_conn) :: W
          _fe_conn := fe_conn } () ∧
      ((fe_conn.get_sampling_mode ≠ sampling_t.HETERODYNE ∧ W = []) ∨
        (fe_conn.get_sampling_mode = sampling_t.HETERODYNE ∧
          ∃ b, W = [(self._rx_fe_het_cordic_phase_reg % UINT32_MOD, b)]))) ∨
    self.set_fe_connection epsilon fe_conn =
      .thrown { self with
        _iface := self._iface ++
          [(self._rx_fe_mapping_reg % UINT32_MOD, mapping_reg_val fe_conn)] } := by
  by_cases h0 : self._adc_rate = 0
  · exact Or.inr (set_fe_connection_rate_zero self epsilon fe_conn h0)
  · by_cases hm : fe_conn.get_sampling_mode = sampling_t.HETERODYNE
    · by_cases h4 : quarter_rate_check epsilon self._adc_rate
          (cordic_freq fe_conn.get_if_freq self._adc_rate) = true
      · exact Or.inl ⟨_, set_fe_connection_het_ok self epsilon fe_conn h0 hm h4,
          Or.inr ⟨hm, _, rfl⟩⟩
      · exact Or.inr (set_fe_connection_het_fail self epsilon fe_conn h0 hm
          (Bool.eq_false_iff.mpr h4))
    · exact Or.inl ⟨[], set_fe_connection_not_het self epsilon fe_conn h0 hm,
        Or.inl ⟨hm, rfl⟩⟩

/-- The three ways `set_dc_offset` can end. -/
theorem set_dc_offset_shape (self : rx_frontend_core_3000_impl) (off : complex_double) :
    (∃ i q, self.set_dc_offset off =
        .returned { self with
          _i_dc_off := i
          _q_dc_off := q
          _iface := self._iface ++
            [(self._rx_fe_offset_i_reg % UINT32_MOD,
                (OFFSET_SET ||| OFFSET_FIXED) ||| twos_complement 30 i),
             (self._rx_fe_offset_q_reg % UINT32_MOD,
                (OFFSET_SET ||| OFFSET_FIXED) ||| twos_complement 30 q)] }
          ⟨(i : ℚ) / scaler, (q : ℚ) / scaler⟩) ∨
    self.set_dc_offset off = .thrown self ∨
    (∃ i, self.set_dc_offset off = .thrown { self with _i_dc_off := i }) := by
  cases hi : iround (off.real * scaler) with
  | none =>
    refine Or.inr (Or.inl ?_)
    simp [set_dc_offset, hi]
  | some i =>
    cases hq : iround (off.imag * scaler) with
    | none =>
      refine Or.inr (Or.inr ⟨i, ?_⟩)
      simp [set_dc_offset, hi, hq]
    | some q =>
      exact Or.inl ⟨i, q, set_dc_offset_of_iround self off i q hi hq⟩

/-- The four ways `set_iq_balance` can end. -/
theorem set_iq_balance_shape (self : rx_frontend_core_3000_impl) (cor : complex_double) :
    (∃ m p, self.set_iq_balance cor =
        .returned { self with
          _iface := self._iface ++
            [(self._rx_fe_mag_corr_reg % UINT32_MOD, m),
             (self._rx_fe_phase_corr_reg % UINT32_MOD, p)] } ()) ∨
    self.set_iq_balance cor = .undefined ∨
    self.set_iq_balance cor = .thrown self ∨
    (∃ m, self.set_iq_balance cor =
      .thrown { self with
        _iface := self._iface ++ [(self._rx_fe_mag_corr_reg % UINT32_MOD, m)] }) := by
  cases hm : fs_to_bits cor.real 18 with
  | undefined =>
    refine Or.inr (Or.inl ?_)
    unfold set_iq_balance
    rw [hm]
  | rounding_error =>
    refine Or.inr (Or.inr (Or.inl ?_))
    unfold set_iq_balance
    rw [hm]
  | value m =>
    cases hp : fs_to_bits cor.imag 18 with
    | undefined =>
      refine Or.inr (Or.inl ?_)
      unfold set_iq_balance
      rw [hm]
      simp only
      rw [show fs_to_bits cor.imag 18 = Conversion.undefined from hp]
    | rounding_error =>
      refine Or.inr (Or.inr (Or.inr ⟨m % UINT32_MOD, ?_⟩))
      unfold set_iq_balance
      rw [hm]
      simp only
      rw [show fs_to_bits cor.imag 18 = Conversion.rounding_error from hp]
      simp only [poke32]
    | value p =>
      exact Or.inl ⟨_, _, set_iq_balance_of_bits self cor m p hm hp⟩

/-- The outcome of `bypass_all`. -/
theorem bypass_all_eq (self : rx_frontend_core_3000_impl) (epsilon : ℚ) (bypass_en : Bool) :
    self.bypass_all epsilon bypass_en =
      if bypass_en then
        .returned { self with
          _iface := self._iface ++ [(self._rx_fe_mapping_reg % UINT32_MOD, 128)] } ()
      else self.set_fe_connection epsilon self._fe_conn := by
  have e : FLAG_DSP_RX_MAPPING_BYPASS_ALL % UINT32_MOD = 128 := by decide
  cases bypass_en <;> simp [bypass_all, poke32, e]

/-- One call leaves the register members alone, and stores a descriptor only when it is
a `set_fe_connection` call that returns. -/
theorem perform_frame (self s : rx_frontend_core_3000_impl) (epsilon : ℚ) (c : call)
    (h : self.perform epsilon c = some s) :
    (s._rx_fe_mag_corr_reg = self._rx_fe_mag_corr_reg ∧
      s._rx_fe_phase_corr_reg = self._rx_fe_phase_corr_reg ∧
      s._rx_fe_offset_i_reg = self._rx_fe_offset_i_reg ∧
      s._rx_fe_offset_q_reg = self._rx_fe_offset_q_reg ∧
      s._rx_fe_mapping_reg = self._rx_fe_mapping_reg ∧
      s._rx_fe_het_cordic_phase_reg = self._rx_fe_het_cordic_phase_reg) ∧
    ((∃ fe_conn, c = call.set_fe_connection fe_conn ∧
        self.set_fe_connection epsilon fe_conn = .returned s () ∧ s._fe_conn = fe_conn) ∨
      (s._fe_conn = self._fe_conn ∧ ∀ fe_conn, c = call.set_fe_connection fe_conn →
        ∃ t, self.set_fe_connection epsilon fe_conn = .thrown t)) := by
  have hsfc : ∀ (fe_conn : fe_connection_t) (u : rx_frontend_core_3000_impl),
      (self.set_fe_connection epsilon fe_conn).object = some u →
      (u._rx_fe_mag_corr_reg = self._rx_fe_mag_corr_reg ∧
        u._rx_fe_phase_corr_reg = self._rx_fe_phase_corr_reg ∧
        u._rx_fe_offset_i_reg = self._rx_fe_offset_i_reg ∧
        u._rx_fe_offset_q_reg = self._rx_fe_offset_q_reg ∧
        u._rx_fe_mapping_reg = self._rx_fe_mapping_reg ∧
        u._rx_fe_het_cordic_phase_reg = self._rx_fe_het_cordic_phase_reg) ∧
      ((self.set_fe_connection epsilon fe_conn = .returned u () ∧ u._fe_conn = fe_conn) ∨
        (self.set_fe_connection epsilon fe_conn = .thrown u ∧ u._fe_conn = self._fe_conn)) := by
    intro fe_conn u hu
    rcases set_fe_connection_shape self epsilon fe_conn with ⟨W, hW, _⟩ | hT
    · rw [hW] at hu ⊢
      simp only [Outcome.object, Option.some.injEq] at hu
      subst hu
      exact ⟨⟨rfl, rfl, rfl, rfl, rfl, rfl⟩, Or.inl ⟨rfl, rfl⟩⟩
    · rw [hT] at hu ⊢
      simp only [Outcome.object, Option.some.injEq] at hu
      subst hu
      exact ⟨⟨rfl, rfl, rfl, rfl, rfl, rfl⟩, Or.inr ⟨rfl, rfl⟩⟩
  cases c with
  | set_adc_rate rate =>
    simp only [perform, set_adc_rate, Outcome.object, Option.some.injEq] at h
    subst h
    exact ⟨⟨rfl, rfl, rfl, rfl, rfl, rfl⟩, Or.inr ⟨rfl, fun _ hc => by cases hc⟩⟩
  | bypass_all bypass_en =>
    simp only [perform] at h
    rw [bypass_all_eq] at h
    cases bypass_en with
    | true =>
      simp only [if_true, Outcome.object, Option.some.injEq] at h
      subst h
      exact ⟨⟨rfl, rfl, rfl, rfl, rfl, rfl⟩, Or.inr ⟨rfl, fun _ hc => by cases hc⟩⟩
    | false =>
      simp only [Bool.false_eq_true, if_false] at h
      obtain ⟨hregs, hr | ht⟩ := hsfc _ _ h
      · exact ⟨hregs, Or.inr ⟨hr.2, fun _ hc => by cases hc⟩⟩
      · exact ⟨hregs, Or.inr ⟨ht.2, fun _ hc => by cases hc⟩⟩
  | set_fe_connection fe_conn =>
    simp only [perform] at h
    obtain ⟨hregs, hr | ht⟩ := hsfc _ _ h
    · exact ⟨hregs, Or.inl ⟨_, rfl, hr.1, hr.2⟩⟩
    · refine ⟨hregs, Or.inr ⟨ht.2, fun d hd => ?_⟩⟩
      cases hd
      exact ⟨_, ht.1⟩
  | set_dc_offset_auto enb =>
    simp only [perform] at h
    rw [set_dc_offset_auto_eq] at h
    simp only [Outcome.object, Option.some.injEq] at h
    subst h
    exact ⟨⟨rfl, rfl, rfl, rfl, rfl, rfl⟩, Or.inr ⟨rfl, fun _ hc => by cases hc⟩⟩
  | set_dc_offset off =>
    simp only [perform] at h
    rcases set_dc_offset_shape self off with ⟨i, q, h'⟩ | h' | ⟨i, h'⟩ <;>
    · rw [h'] at h
      simp only [Outcome.object, Option.some.injEq] at h
      subst h
      exact ⟨⟨rfl, rfl, rfl, rfl, rfl, rfl⟩, Or.inr ⟨rfl, fun _ hc => by cases hc⟩⟩
  | set_iq_balance cor =>
    simp only [perform] at h
    rcases set_iq_balance_shape self cor with ⟨m, p, h'⟩ | h' | h' | ⟨m, h'⟩
    · rw [h'] at h
      simp only [Outcome.object, Option.some.injEq] at h
      subst h
      exact ⟨⟨rfl, rfl, rfl, rfl, rfl, rfl⟩, Or.inr ⟨rfl, fun _ hc => by cases hc⟩⟩
    · rw [h'] at h
      simp [Outcome.object] at h
    · rw [h'] at h
      simp only [Outcome.object, Option.some.injEq] at h
      subst h
      exact ⟨⟨rfl, rfl, rfl, rfl, rfl, rfl⟩, Or.inr ⟨rfl, fun _ hc => by cases hc⟩⟩
    · rw [h'] at h
      simp only [Outcome.object, Option.some.injEq] at h
      subst h
      exact ⟨⟨rfl, rfl, rfl, rfl, rfl, rfl⟩, Or.inr ⟨rfl, fun _ hc => by cases hc⟩⟩

/-- The register members never change after construction. -/
theorem run_regs (epsilon : ℚ) (calls : List call) :
    ∀ self s : rx_frontend_core_3000_impl, self.run epsilon calls = some s →
      s._rx_fe_mag_corr_reg = self._rx_fe_mag_corr_reg ∧
      s._rx_fe_phase_corr_reg = self._rx_fe_phase_corr_reg ∧
      s._rx_fe_offset_i_reg = self._rx_fe_offset_i_reg ∧
      s._rx_fe_offset_q_reg = self._rx_fe_offset_q_reg ∧
      s._rx_fe_mapping_reg = self._rx_fe_mapping_reg ∧
      s._rx_fe_het_cordic_phase_reg = self._rx_fe_het_cordic_phase_reg := by
  induction calls with
  | nil =>
    intro self s h
    simp only [run, Option.some.injEq] at h
    subst h
    exact ⟨rfl, rfl, rfl, rfl, rfl, rfl⟩
  | cons c cs ih =>
    intro self s h
    cases hp : self.perform epsilon c with
    | none => simp [run, hp] at h
    | some s1 =>
      simp only [run, hp] at h
      have h1 := (perform_frame self s1 epsilon c hp).1
      have h2 := ih s1 s h
      exact ⟨h2.1.trans h1.1, h2.2.1.trans h1.2.1, h2.2.2.1.trans h1.2.2.1,
        h2.2.2.2.1.trans h1.2.2.2.1, h2.2.2.2.2.1.trans h1.2.2.2.2.1,
        h2.2.2.2.2.2.trans h1.2.2.2.2.2⟩

/-- The stored descriptor is that of the most recent returning `set_fe_connection`. -/
theorem run_fe_conn (epsilon : ℚ) (calls : List call) :
    ∀ self s : rx_frontend_core_3000_impl, self.run epsilon calls = some s →
      s._fe_conn = last_applied epsilon self._fe_conn self calls := by
  induction calls with
  | nil =>
    intro self s h
    simp only [run, Option.some.injEq] at h
    subst h
    rfl
  | cons c cs ih =>
    intro self s h
    cases hp : self.perform epsilon c with
    | none => simp [run, hp] at h
    | some s1 =>
      simp only [run, hp] at h
      have h2 := ih s1 s h
      rw [h2]
      rcases (perform_frame self s1 epsilon c hp).2 with ⟨d, hc, hr, hd⟩ | ⟨hsame, hthrow⟩
      · subst hc
        simp only [last_applied, hp, hr, hd]
      · cases c with
        | set_fe_connection d =>
          obtain ⟨t, ht⟩ := hthrow d rfl
          simp only [last_applied, hp, ht, hsame]
        | set_adc_rate rate => simp only [last_applied, hp, hsame]
        | bypass_all bypass_en => simp only [last_applied, hp, hsame]
        | set_dc_offset_auto enb => simp only [last_applied, hp, hsame]
        | set_dc_offset off => simp only [last_applied, hp, hsame]
        | set_iq_balance cor => simp only [last_applied, hp, hsame]

/-! ## Failure of `set_fe_connection` -/

/-- C17: whenever `set_fe_connection(d)` throws, the object it leaves differs from the
one before only by one poke, of `d`'s mapping word to the mapping register: the stored
descriptor, ADC rate and cached DC offsets are unchanged and no mixer-phase poke was
issued, yet the mapping register holds `d`'s word. In every state reached from
construction by a sequence of calls the stored descriptor is that of the most recent
`set_fe_connection` call that returned, or the construction default; after a rejected
`REAL` descriptor on a fresh core it is the default (mapping word 0) while the mapping
register holds 2. This holds under every tolerance of the quarter-rate comparison. -/
theorem set_fe_connection_failure (self s' : rx_frontend_core_3000_impl) (epsilon : ℚ)
    (fe_conn : fe_connection_t) (h : self.set_fe_connection epsilon fe_conn = .thrown s') :
    s' = { self with
      _iface := self._iface ++
        [(self._rx_fe_mapping_reg % UINT32_MOD, mapping_reg_val fe_conn)] } ∧
    (s'._fe_conn = self._fe_conn ∧ s'._adc_rate = self._adc_rate ∧
      s'._i_dc_off = self._i_dc_off ∧ s'._q_dc_off = self._q_dc_off) ∧
    s'._iface = self._iface ++
      [(self._rx_fe_mapping_reg % UINT32_MOD, mapping_reg_val fe_conn)] ∧
    reg_value s'._iface (self._rx_fe_mapping_reg % UINT32_MOD) =
      some (mapping_reg_val fe_conn) ∧
    (∀ (iface : List (ℕ × ℕ)) (fe_conn_IQ : fe_connection_t) (base reg_offset : ℕ)
      (calls : List call) (s : rx_frontend_core_3000_impl),
      (make iface fe_conn_IQ base reg_offset).run epsilon calls = some s →
      s._fe_conn = last_applied epsilon fe_conn_IQ (make iface fe_conn_IQ base reg_offset) calls) ∧
    (∃ s, (make [] ⟨sampling_t.QUADRATURE, false, false, false, 0⟩ 0 4).run epsilon
        [call.set_fe_connection ⟨sampling_t.REAL, false, false, false, 0⟩] = some s ∧
      reg_value s._iface (s._rx_fe_mapping_reg % UINT32_MOD) = some 2 ∧
      mapping_reg_val s._fe_conn = 0) := by
  have hs : s' = { self with
      _iface := self._iface ++
        [(self._rx_fe_mapping_reg % UINT32_MOD, mapping_reg_val fe_conn)] } := by
    rcases set_fe_connection_shape self epsilon fe_conn with ⟨W, hW, _⟩ | hT
    · rw [hW] at h
      cases h
    · rw [hT] at h
      injection h with h
      exact h.symm
  refine ⟨hs, ?_, ?_, ?_, fun iface fe_conn_IQ base reg_offset calls s hrun =>
    run_fe_conn epsilon calls _ s hrun, ?_⟩
  · rw [hs]
    exact ⟨rfl, rfl, rfl, rfl⟩
  · rw [hs]
  · rw [hs]
    show reg_value (self._iface ++ _) _ = _
    rw [reg_value_append_one, if_pos rfl]
  · have h0 := set_fe_connection_rate_zero
      (make [] ⟨sampling_t.QUADRATURE, false, false, false, 0⟩ 0 4) epsilon
      ⟨sampling_t.REAL, false, false, false, 0⟩ rfl
    have hrun : (make [] ⟨sampling_t.QUADRATURE, false, false, false, 0⟩ 0 4).run epsilon
        [call.set_fe_connection ⟨sampling_t.REAL, false, false, false, 0⟩] =
        some ({ make [] ⟨sampling_t.QUADRATURE, false, false, false, 0⟩ 0 4 with
          _iface := [(16, 2)] } : rx_frontend_core_3000_impl) := by
      simp only [run, perform, h0, Outcome.object]
      decide
    exact ⟨_, hrun, by decide, by decide⟩

/-- Witness for C17: on a freshly constructed core (rate 0, direct-complex default) the
`REAL` descriptor is rejected; the stored descriptor is still the default, whose mapping
word is 0, while the mapping register now holds 2 (tolerance `2^-52`). -/
theorem set_fe_connection_failure_witness :
    ∃ s', (make [] ⟨sampling_t.QUADRATURE, false, false, false, 0⟩ 0 4).set_fe_connection
        (1 / 2 ^ 52) ⟨sampling_t.REAL, false, false, false, 0⟩ = .thrown s' ∧
      s'._fe_conn = ⟨sampling_t.QUADRATURE, false, false, false, 0⟩ ∧
      mapping_reg_val s'._fe_conn = 0 ∧
      reg_value s'._iface 16 = some 2 := by
  have h0 := set_fe_connection_rate_zero
    (make [] ⟨sampling_t.QUADRATURE, false, false, false, 0⟩ 0 4) (1 / 2 ^ 52)
    ⟨sampling_t.REAL, false, false, false, 0⟩ rfl
  obtain ⟨_, hc, _, hreg, _⟩ := set_fe_connection_failure _ _ _ _ h0
  exact ⟨_, h0, hc.1, by decide, hreg⟩

/-! ## Register addresses -/

/-- After any sequence of calls the register members are the bus addresses laid out at
construction. -/
theorem run_bus_addresses (epsilon : ℚ) (iface : List (ℕ × ℕ)) (fe_conn_IQ : fe_connection_t)
    (base reg_offset : ℕ) (calls : List call) (s : rx_frontend_core_3000_impl)
    (hs : (make iface fe_conn_IQ base reg_offset).run epsilon calls = some s) :
    s._rx_fe_mag_corr_reg % UINT32_MOD = bus_address base reg_offset 0 ∧
    s._rx_fe_phase_corr_reg % UINT32_MOD = bus_address base reg_offset 1 ∧
    s._rx_fe_offset_i_reg % UINT32_MOD = bus_address base reg_offset 2 ∧
    s._rx_fe_offset_q_reg % UINT32_MOD = bus_address base reg_offset 3 ∧
    s._rx_fe_mapping_reg % UINT32_MOD = bus_address base reg_offset 4 ∧
    s._rx_fe_het_cordic_phase_reg % UINT32_MOD = bus_address base reg_offset 5 := by
  obtain ⟨h0, h1, h2, h3, h4, h5⟩ := run_regs epsilon calls _ s hs
  rw [h0, h1, h2, h3, h4, h5]
  exact ⟨reg_mod_bus base reg_offset 0, reg_mod_bus base reg_offset 1,
    reg_mod_bus base reg_offset 2, reg_mod_bus base reg_offset 3,
    reg_mod_bus base reg_offset 4, reg_mod_bus base reg_offset 5⟩

/-- C11, counterexample: on a core constructed with base `2^64 - 4` and stride 4 (and
likewise with base `2^32 - 4`), `bypass_all(true)` pokes address 12, whereas
`base + 4 * stride` is `2^64 + 12` (respectively `2^32 + 12`); the tolerance of the
quarter-rate comparison plays no part. -/
theorem bypass_all_address_wraps :
    (∀ epsilon : ℚ,
      (make [] ⟨sampling_t.QUADRATURE, false, false, false, 0⟩ (2 ^ 64 - 4) 4).bypass_all
          epsilon true =
        .returned
          { make [] ⟨sampling_t.QUADRATURE, false, false, false, 0⟩ (2 ^ 64 - 4) 4 with
            _iface := [(12, 128)] } ()) ∧
    (∀ epsilon : ℚ,
      (make [] ⟨sampling_t.QUADRATURE, false, false, false, 0⟩ (2 ^ 32 - 4) 4).bypass_all
          epsilon true =
        .returned
          { make [] ⟨sampling_t.QUADRATURE, false, false, false, 0⟩ (2 ^ 32 - 4) 4 with
            _iface := [(12, 128)] } ()) ∧
    (2 ^ 64 - 4) + 4 * 4 ≠ 12 ∧ (2 ^ 32 - 4) + 4 * 4 ≠ 12 := by
  refine ⟨fun epsilon => ?_, fun epsilon => ?_, by decide, by decide⟩
  · rw [bypass_all_eq, if_pos rfl]
    decide
  · rw [bypass_all_eq, if_pos rfl]
    decide

/-- C11, amended: on a core constructed with any `base` and stride, after any sequence
of calls, every poke goes to the 32-bit bus address `(base + stride * k) mod 2^32` of
the index table `k` = 0 magnitude, 1 phase, 2 I offset, 3 Q offset, 4 mapping, 5 mixer
phase. A returning `set_iq_balance` pokes indices 0 then 1 (a throwing one pokes nothing
or index 0 alone); a returning `set_dc_offset`
and every `set_dc_offset_auto` poke 2 then 3 (a throwing `set_dc_offset` pokes nothing);
`bypass_all(true)` pokes 4; `set_fe_connection` pokes 4 and, when it returns, then 5 iff
the mode is `HETERODYNE` (when it throws, 4 alone); `set_adc_rate` pokes nothing. The
address is `base + stride * k` itself whenever `base + 5 * stride < 2^32`. This holds
under every tolerance of the quarter-rate comparison. -/
theorem register_addresses (epsilon : ℚ) (iface : List (ℕ × ℕ)) (fe_conn_IQ : fe_connection_t)
    (base reg_offset : ℕ) (calls : List call) (s : rx_frontend_core_3000_impl)
    (hs : (make iface fe_conn_IQ base reg_offset).run epsilon calls = some s) :
    (∀ cor s', s.set_iq_balance cor = .returned s' () →
      ∃ m p, s'._iface = s._iface ++
        [(bus_address base reg_offset 0, m), (bus_address base reg_offset 1, p)]) ∧
    (∀ cor s', s.set_iq_balance cor = .thrown s' →
      s'._iface = s._iface ∨
        ∃ m, s'._iface = s._iface ++ [(bus_address base reg_offset 0, m)]) ∧
    (∀ off s' y, s.set_dc_offset off = .returned s' y →
      ∃ wI wQ, s'._iface = s._iface ++
        [(bus_address base reg_offset 2, wI), (bus_address base reg_offset 3, wQ)]) ∧
    (∀ off s', s.set_dc_offset off = .thrown s' → s'._iface = s._iface) ∧
    (∀ enb, ∃ s' wI wQ, s.set_dc_offset_auto enb = .returned s' () ∧
      s'._iface = s._iface ++
        [(bus_address base reg_offset 2, wI), (bus_address base reg_offset 3, wQ)]) ∧
    (∃ s', s.bypass_all epsilon true = .returned s' () ∧
      s'._iface = s._iface ++ [(bus_address base reg_offset 4, 128)]) ∧
    (∀ fe_conn s', s.set_fe_connection epsilon fe_conn = .returned s' () →
      ∃ w, (fe_conn.get_sampling_mode ≠ sampling_t.HETERODYNE ∧
          s'._iface = s._iface ++ [(bus_address base reg_offset 4, w)]) ∨
        (fe_conn.get_sampling_mode = sampling_t.HETERODYNE ∧
          ∃ b, s'._iface = s._iface ++
            [(bus_address base reg_offset 4, w), (bus_address base reg_offset 5, b)])) ∧
    (∀ fe_conn s', s.set_fe_connection epsilon fe_conn = .thrown s' →
      ∃ w, s'._iface = s._iface ++ [(bus_address base reg_offset 4, w)]) ∧
    s.bypass_all epsilon false = s.set_fe_connection epsilon s._fe_conn ∧
    (∀ rate, ∃ s', s.set_adc_rate rate = .returned s' () ∧ s'._iface = s._iface) ∧
    (∀ k, bus_address base reg_offset k = (base + reg_offset * k) % 2 ^ 32) ∧
    (base + reg_offset * 5 < 2 ^ 32 →
      ∀ k, k ≤ 5 → bus_address base reg_offset k = base + reg_offset * k) := by
  obtain ⟨a0, a1, a2, a3, a4, a5⟩ :=
    run_bus_addresses epsilon iface fe_conn_IQ base reg_offset calls s hs
  refine ⟨?_, ?_, ?_, ?_, ?_, ?_, ?_, ?_, ?_, ?_, fun k => rfl,
    fun hfit k hk => bus_address_fits base reg_offset k hfit hk⟩
  · intro cor s' h
    rcases set_iq_balance_shape s cor with ⟨m, p, h'⟩ | h' | h' | ⟨m, h'⟩
    · rw [h'] at h
      injection h with h
      exact ⟨m, p, by rw [← h, a0, a1]⟩
    · rw [h'] at h
      cases h
    · rw [h'] at h
      cases h
    · rw [h'] at h
      cases h
  · intro cor s' h
    rcases set_iq_balance_shape s cor with ⟨m, p, h'⟩ | h' | h' | ⟨m, h'⟩
    · rw [h'] at h
      cases h
    · rw [h'] at h
      cases h
    · rw [h'] at h
      injection h with h
      exact Or.inl (by rw [← h])
    · rw [h'] at h
      injection h with h
      exact Or.inr ⟨m, by rw [← h, a0]⟩
  · intro off s' y h
    rcases set_dc_offset_shape s off with ⟨i, q, h'⟩ | h' | ⟨i, h'⟩
    · rw [h'] at h
      injection h with h
      exact ⟨_, _, by rw [← h, a2, a3]⟩
    · rw [h'] at h
      cases h
    · rw [h'] at h
      cases h
  · intro off s' h
    rcases set_dc_offset_shape s off with ⟨i, q, h'⟩ | h' | ⟨i, h'⟩
    · rw [h'] at h
      cases h
    · rw [h'] at h
      injection h with h
      rw [← h]
    · rw [h'] at h
      injection h with h
      rw [← h]
  · intro enb
    exact ⟨_, _, _, set_dc_offset_auto_eq s enb, by rw [a2, a3]⟩
  · have hb := bypass_all_eq s epsilon true
    rw [if_pos rfl] at hb
    exact ⟨_, hb, by rw [a4]⟩
  · intro fe_conn s' h
    rcases set_fe_connection_shape s epsilon fe_conn with ⟨W, hW, hmode⟩ | hT
    · rw [hW] at h
      injection h with h
      refine ⟨mapping_reg_val fe_conn, ?_⟩
      rcases hmode with ⟨hm, hnil⟩ | ⟨hm, b, hb⟩
      · exact Or.inl ⟨hm, by rw [← h, hnil, a4]⟩
      · exact Or.inr ⟨hm, b, by rw [← h, hb, a4, a5]⟩
    · rw [hT] at h
      cases h
  · intro fe_conn s' h
    rcases set_fe_connection_shape s epsilon fe_conn with ⟨W, hW, _⟩ | hT
    · rw [hW] at h
      cases h
    · rw [hT] at h
      injection h with h
      exact ⟨_, by rw [← h, a4]⟩
  · rw [bypass_all_eq]
    rfl
  · intro rate
    exact ⟨_, rfl, rfl⟩

/-- Witness for C11: tolerance `2^-52`, base `0x1000`, stride 4, after setting the ADC
rate to 40 MHz and a DC offset: the heterodyne descriptor with IF 10 MHz pokes `0x1010`
and then `0x1014`. -/
theorem register_addresses_witness :
    ∃ s s',
      (make [] ⟨sampling_t.QUADRATURE, false, false, false, 0⟩ 4096 4).run (1 / 2 ^ 52)
        [call.set_adc_rate 40000000, call.set_dc_offset_auto true] = some s ∧
      s.set_fe_connection (1 / 2 ^ 52)
        ⟨sampling_t.HETERODYNE, false, false, false, 10000000⟩ = .returned s' () ∧
      ∃ w b, s'._iface = s._iface ++ [(4112, w), (4116, b)] := by
  have hrun : (make [] ⟨sampling_t.QUADRATURE, false, false, false, 0⟩ 4096 4).run
      (1 / 2 ^ 52) [call.set_adc_rate 40000000, call.set_dc_offset_auto true] =
      some ({ make [] ⟨sampling_t.QUADRATURE, false, false, false, 0⟩ 4096 4 with
        _adc_rate := 40000000, _iface := [(4104, 0), (4108, 0)] } :
        rx_frontend_core_3000_impl) := by
    simp only [run, perform, set_adc_rate, Outcome.object, set_dc_offset_auto_eq]
    decide
  have h := register_addresses _ _ _ _ _ _ _ hrun
  have hok := set_fe_connection_het_ok
    ({ make [] ⟨sampling_t.QUADRATURE, false, false, false, 0⟩ 4096 4 with
      _adc_rate := 40000000, _iface := [(4104, 0), (4108, 0)] } : rx_frontend_core_3000_impl)
    (1 / 2 ^ 52) ⟨sampling_t.HETERODYNE, false, false, false, 10000000⟩ (by norm_num) rfl
    (quarter_rate_check_example _ (by norm_num))
  refine ⟨_, _, hrun, hok, ?_⟩
  obtain ⟨w, hw | ⟨_, b, hb⟩⟩ := h.2.2.2.2.2.2.1 _ _ hok
  · exact absurd rfl hw.1
  · exact ⟨w, b, hb⟩

end uhd
